import Mathlib

/-!
Verification of the codebase upload/storage service (Go, two-tier: API server,
storage server, plus a single-process variant).

Paths are modelled as lists of characters (Go strings restricted to the
characters relevant here); file contents as lists of byte values (Nat).
The path functions below are shallow embeddings of Go's path/filepath
functions on a Unix separator, as used by the handlers in src/main.go,
src/server-a/main.go and the storage server source.
-/

/-- Character-list model of a Go string. -/
abbrev Str := List Char

/-- Convert a Lean string literal to the model type. -/
def strOf (s : String) : Str := s.data

/-- Model of Go strings.HasPrefix. -/
def startsWithStr (s pre : Str) : Bool := pre.isPrefixOf s

/-- Model of Go strings.Contains: sub occurs contiguously anywhere in s. -/
def containsSub (s sub : Str) : Bool := s.tails.any (fun t => sub.isPrefixOf t)

/-- Split a string at every '/' character (Go strings.Split(s, "/")); an
empty string yields one empty segment. -/
def splitOnSlash : Str → List Str
  | [] => [[]]
  | c :: rest =>
    match splitOnSlash rest with
    | [] => [[]]
    | seg :: segs => if c = '/' then [] :: seg :: segs else (c :: seg) :: segs

/-- Join segments with '/' (Go strings.Join(segs, "/")). -/
def joinSegs : List Str → Str
  | [] => []
  | [s] => s
  | s :: rest => s ++ '/' :: joinSegs rest

/-- One step of the element loop inside Go filepath.Clean: the stack of kept
segments (head = most recent), processing the next raw segment.  "." and empty
segments are dropped; ".." pops a kept segment, is dropped at the root of a
rooted path, and otherwise accumulates. -/
def cleanStep (rooted : Bool) (st : List Str) (seg : Str) : List Str :=
  if seg = [] ∨ seg = strOf "." then st
  else if seg = strOf ".." then
    match st with
    | [] => if rooted then [] else [strOf ".."]
    | top :: rest => if top = strOf ".." then seg :: top :: rest else rest
  else seg :: st

/-- Model of Go filepath.Clean on a Unix separator. -/
def cleanPath (p : Str) : Str :=
  if p = [] then strOf "."
  else
    let rooted := startsWithStr p (strOf "/")
    let st := (splitOnSlash p).foldl (cleanStep rooted) []
    let out := st.reverse
    if out = [] then (if rooted then strOf "/" else strOf ".")
    else (if rooted then strOf "/" else []) ++ joinSegs out

/-- Model of Go filepath.Join on two elements: empty elements are skipped and
the concatenation is cleaned. -/
def join2 (a b : Str) : Str :=
  if a = [] ∧ b = [] then []
  else if a = [] then cleanPath b
  else if b = [] then cleanPath a
  else cleanPath (a ++ '/' :: b)

/-- Model of Go filepath.Base: strip trailing separators, take the final
element; empty input gives ".", an all-separator input gives "/". -/
def baseName (p : Str) : Str :=
  if p = [] then strOf "."
  else
    let q := (p.reverse.dropWhile (fun c => c = '/')).reverse
    let r := (q.reverse.takeWhile (fun c => c ≠ '/')).reverse
    if r = [] then strOf "/" else r

/-- Model of Go filepath.Dir: everything up to and including the final
separator, cleaned (Clean of the empty string is "."). -/
def dirName (p : Str) : Str :=
  cleanPath ((p.reverse.dropWhile (fun c => c ≠ '/')).reverse)

/-- Decide whether a character is an ASCII hexadecimal digit. -/
def isHexDigit (c : Char) : Bool :=
  (('0'.toNat ≤ c.toNat ∧ c.toNat ≤ '9'.toNat)
    ∨ ('a'.toNat ≤ c.toNat ∧ c.toNat ≤ 'f'.toNat)
    ∨ ('A'.toNat ≤ c.toNat ∧ c.toNat ≤ 'F'.toNat) : Prop)

/-- Character check for position i of a canonical UUID string: hyphens at
positions 8, 13, 18 and 23, hexadecimal digits elsewhere. -/
def uuidCharsOk : Nat → Str → Bool
  | _, [] => true
  | i, c :: rest =>
    (if i = 8 ∨ i = 13 ∨ i = 18 ∨ i = 23 then c = '-' else isHexDigit c)
      && uuidCharsOk (i + 1) rest

/-- Modelled from uuid.Parse: validity of the canonical 36-character textual
UUID form, the form the system itself generates with uuid.New().String().
(uuid.Parse also accepts urn-prefixed, braced and 32-digit variants; like the
canonical form, none of those contain a separator character, so the path
properties proved below are unaffected by restricting to the canonical form.) -/
def uuidValid (s : Str) : Bool :=
  decide (s.length = 36) && uuidCharsOk 0 s

/-- Does a path contain a parent-reference segment after splitting on '/'. -/
def hasDotDotSeg (p : Str) : Bool :=
  (splitOnSlash p).any (fun s => decide (s = strOf ".."))

/-- Byte scanner for Go utf8.Valid, mirroring its first-byte table and
accept ranges: pending counts the continuation bytes still owed for the
current rune; lo and hi bound the next continuation byte (the first
continuation's range depends on the leading byte - 0xE0 and 0xF0 exclude
overlong forms, 0xED excludes surrogates, 0xF4 caps at U+10FFFF - and every
later continuation must lie in 0x80..0xBF). -/
def utf8Scan : Nat → Nat → Nat → List Nat → Bool
  | 0, _, _, [] => true
  | _ + 1, _, _, [] => false
  | 0, _, _, b :: rest =>
    if b < 128 then utf8Scan 0 0 0 rest
    else if 194 ≤ b ∧ b ≤ 223 then utf8Scan 1 128 191 rest
    else if b = 224 then utf8Scan 2 160 191 rest
    else if 225 ≤ b ∧ b ≤ 236 then utf8Scan 2 128 191 rest
    else if b = 237 then utf8Scan 2 128 159 rest
    else if 238 ≤ b ∧ b ≤ 239 then utf8Scan 2 128 191 rest
    else if b = 240 then utf8Scan 3 144 191 rest
    else if 241 ≤ b ∧ b ≤ 243 then utf8Scan 3 128 191 rest
    else if b = 244 then utf8Scan 3 128 143 rest
    else false
  | n + 1, lo, hi, b :: rest =>
    if lo ≤ b ∧ b ≤ hi then utf8Scan n 128 191 rest else false

/-- Model of Go utf8.Valid over a byte sequence: scan from the initial
state expecting a leading byte. -/
def utf8Valid (l : List Nat) : Bool := utf8Scan 0 0 0 l

/-- Null bytes counted by the classifier loop.  The source loop breaks once
the index exceeds 8192, so the bytes at indices 0 through 8192 - the first
8193 bytes - are inspected; that loop is rendered as a count over take 8193. -/
def nullCount (content : List Nat) : Nat :=
  (content.take 8193).countP (fun b => decide (b = 0))

/-- Control characters (below 32, excluding tab, line feed and carriage
return) counted by the same loop over the same inspected bytes. -/
def controlCount (content : List Nat) : Nat :=
  (content.take 8193).countP (fun b => decide (b < 32 ∧ b ≠ 9 ∧ b ≠ 10 ∧ b ≠ 13))

/-- Model of the isTextFile helper duplicated in both servers.  The source
compares float64(count)/float64(len) against the literals 0.01 and 0.05; for
every length expressible in this system (requests are capped at 100MB, far
below the ~5*10^16 threshold at which double rounding could matter) those
comparisons hold exactly when 100*count > len, resp. 20*count > len, over the
integers, which is how they are rendered here. -/
def isTextFile (content : List Nat) : Bool :=
  if content.length = 0 then true
  else if utf8Valid content = false then false
  else
    if content.length > 100 then
      if 100 * nullCount content > content.length then false
      else if 20 * controlCount content > content.length then false
      else true
    else true

/-- Filesystem state: regular files keyed by full path, and the set of
existing directories.  Parent directories are entered explicitly (MkdirAll
adds every ancestor), mirroring the on-disk tree. -/
structure Fs where
  files : List (Str × List Nat)
  dirs : List Str
deriving DecidableEq

/-- Content of the regular file at a path, if one exists. -/
def lookupFile : List (Str × List Nat) → Str → Option (List Nat)
  | [], _ => none
  | e :: rest, p => if e.1 = p then some e.2 else lookupFile rest p

/-- Does a directory exist at this path. -/
def isDirFs (fs : Fs) (p : Str) : Bool := fs.dirs.any (fun d => decide (d = p))

/-- Does anything (file or directory) exist at this path (os.Stat succeeds). -/
def pathExistsFs (fs : Fs) (p : Str) : Bool :=
  isDirFs fs p || (lookupFile fs.files p).isSome

/-- Nonempty prefixes of a segment list, shortest first. -/
def segPrefixes : List Str → List (List Str)
  | [] => []
  | s :: rest => [s] :: (segPrefixes rest).map (fun l => s :: l)

/-- A path together with all of its ancestor paths. -/
def pathAncestors (p : Str) : List Str := (segPrefixes (splitOnSlash p)).map joinSegs

/-- Record a directory (no duplicates). -/
def addDir (ds : List Str) (d : Str) : List Str :=
  if ds.any (fun x => decide (x = d)) then ds else d :: ds

/-- Model of os.MkdirAll: create the directory and every missing ancestor;
fails when an existing regular file occupies the path or an ancestor. -/
def mkdirAll (fs : Fs) (p : Str) : Option Fs :=
  if (pathAncestors p).any (fun q => (lookupFile fs.files q).isSome) then none
  else some ⟨fs.files, (pathAncestors p).foldl addDir fs.dirs⟩

/-- Model of a successful os.Create followed by io.Copy: (re)write the
regular file at the path with the given bytes. -/
def writeFile (fs : Fs) (p : Str) (c : List Nat) : Fs :=
  ⟨(p, c) :: fs.files.filter (fun e => decide (e.1 ≠ p)), fs.dirs⟩

/-- Is p the root itself or a path strictly below it. -/
def underOrEq (root p : Str) : Bool :=
  decide (p = root) || (root ++ ['/']).isPrefixOf p

/-- Model of os.RemoveAll: delete the path and everything below it. -/
def removeAll (fs : Fs) (p : Str) : Fs :=
  ⟨fs.files.filter (fun e => !underOrEq p e.1),
   fs.dirs.filter (fun d => !underOrEq p d)⟩

/-- Does any file or directory remain at or below the path. -/
def existsUnderOrEq (fs : Fs) (p : Str) : Bool :=
  fs.dirs.any (fun d => underOrEq p d) || fs.files.any (fun e => underOrEq p e.1)

/-- One multipart entry of an upload batch: the part's file name, the
optional path_<name> form value (empty when absent), and the bytes. -/
structure Entry where
  filename : Str
  pathField : Str
  content : List Nat
deriving DecidableEq

/-- The relative path the single-process upload handler and the storage
server derive for an entry before cleaning: the path_<name> form value,
falling back to the base of the part's file name. -/
def effRelM (e : Entry) : Str :=
  if e.pathField = [] then baseName e.filename else e.pathField

/-- BaseUploadDir of the single-process server. -/
def baseUploadDirS : Str := strOf "./uploads"

/-- BaseStorageDir of the storage server. -/
def baseStorageDirS : Str := strOf "./storage"

/-- Per-entry body of the upload/store loop: base-name validation, relative
path resolution, Clean, the ".." prefix rejection, MkdirAll for the parent,
Create and the content copy.  Returns the updated filesystem and the accepted
relative path, or none when the entry was skipped.  A skipped Create (the
target exists as a directory) keeps the directories MkdirAll already made,
matching the source's continue. -/
def processEntry (uploadDir : Str) (fs : Fs) (e : Entry) : Fs × Option Str :=
  let fileName := baseName e.filename
  if fileName = [] ∨ fileName = strOf "." ∨ fileName = strOf ".." then (fs, none)
  else
    let relativePath := cleanPath (if e.pathField = [] then fileName else e.pathField)
    if startsWithStr relativePath (strOf "..") then (fs, none)
    else
      let fullPath := join2 uploadDir relativePath
      match mkdirAll fs (dirName fullPath) with
      | none => (fs, none)
      | some fs1 =>
        if isDirFs fs1 fullPath then (fs1, none)
        else (writeFile fs1 fullPath e.content, some relativePath)

/-- The upload loop over a batch, accumulating accepted relative paths in
order. -/
def processBatch (uploadDir : Str) (fs : Fs) (entries : List Entry) : Fs × List Str :=
  entries.foldl
    (fun st e =>
      let r := processEntry uploadDir st.1 e
      match r.2 with
      | some rel => (r.1, st.2 ++ [rel])
      | none => (r.1, st.2))
    (fs, [])

/-- Result of an upload/store request: final filesystem, HTTP status, error
message (empty on success) and the reported accepted paths. -/
structure UploadOutcome where
  fs : Fs
  status : Nat
  errMsg : Str
  uploadedFiles : List Str
deriving DecidableEq

/-- Model of uploadCodebase of the single-process server: create the
codebase directory, run the batch, remove the directory and fail with 400
when nothing was accepted, otherwise report the accepted files. -/
def uploadCodebase (fs0 : Fs) (dirID : Str) (entries : List Entry) : UploadOutcome :=
  if entries = [] then ⟨fs0, 400, strOf "No files uploaded", []⟩
  else
    let uploadDir := join2 baseUploadDirS dirID
    match mkdirAll fs0 uploadDir with
    | none => ⟨fs0, 500, strOf "Failed to create upload directory", []⟩
    | some fs1 =>
      let r := processBatch uploadDir fs1 entries
      if r.2 = [] then
        ⟨removeAll r.1 uploadDir, 400, strOf "No valid files were uploaded", []⟩
      else ⟨r.1, 200, [], r.2⟩

/-- Model of storeFiles of the storage server: identical loop under the
storage root, preceded by codebase-id presence and UUID-shape checks. -/
def storeFiles (fs0 : Fs) (codebaseID : Str) (entries : List Entry) : UploadOutcome :=
  if codebaseID = [] then ⟨fs0, 400, strOf "Codebase ID is required", []⟩
  else if uuidValid codebaseID = false then ⟨fs0, 400, strOf "Invalid codebase ID", []⟩
  else if entries = [] then ⟨fs0, 400, strOf "No files provided", []⟩
  else
    let storageDir := join2 baseStorageDirS codebaseID
    match mkdirAll fs0 storageDir with
    | none => ⟨fs0, 500, strOf "Failed to create storage directory", []⟩
    | some fs1 =>
      let r := processBatch storageDir fs1 entries
      if r.2 = [] then
        ⟨removeAll r.1 storageDir, 400, strOf "No valid files were stored", []⟩
      else ⟨r.1, 200, [], r.2⟩

/-- One row of the files table of the API server's database. -/
structure FileRow where
  codebaseID : Str
  path : Str
  name : Str
  size : Nat
deriving DecidableEq

/-- The API server's metadata ledger: codebases(id, file_count) and files
rows. -/
structure DbState where
  codebases : List (Str × Nat)
  fileRows : List FileRow
deriving DecidableEq

/-- The relative path the API server forwards for an entry: the path_<name>
form value, falling back to the part's full file name (not its base). -/
def effRelA (e : Entry) : Str := if e.pathField = [] then e.filename else e.pathField

/-- The entry as it arrives at the storage server after forwarding: the API
server re-sends the bytes under the same part name and writes the resolved
relative path into the path_<name> field. -/
def forwardEntry (e : Entry) : Entry := ⟨e.filename, effRelA e, e.content⟩

/-- FileInfo record the API server builds while forwarding (name is the base
of the resolved relative path, size the number of bytes copied). -/
structure AFileInfo where
  name : Str
  size : Nat
  path : Str
deriving DecidableEq

/-- forwardFilesToStorage's accumulated FileInfo list: one record per entry,
built before and regardless of the storage server's per-entry decisions. -/
def forwardInfos (entries : List Entry) : List AFileInfo :=
  entries.map (fun e => ⟨baseName (effRelA e), e.content.length, effRelA e⟩)

/-- Result of an upload through the API server: status, reported file list,
database state and the storage server's filesystem. -/
structure AOutcome where
  status : Nat
  uploadedFiles : List Str
  db : DbState
  storageFs : Fs
deriving DecidableEq

/-- Model of uploadCodebase of the API server: forward the whole batch to
the storage server; on any non-200 storage reply respond 500 and write no
metadata; on 200 insert a codebase row and one file row per forwarded entry
and report every forwarded path.  The metadata transaction itself is modelled
as succeeding. -/
def serverAUpload (db0 : DbState) (fs0 : Fs) (codebaseID : Str) (entries : List Entry) :
    AOutcome :=
  if entries = [] then ⟨400, [], db0, fs0⟩
  else
    let infos := forwardInfos entries
    let st := storeFiles fs0 codebaseID (entries.map forwardEntry)
    if st.status = 200 then
      ⟨200, infos.map (fun i => i.path),
        ⟨(codebaseID, infos.length) :: db0.codebases,
         infos.map (fun i => ⟨codebaseID, i.path, i.name, i.size⟩) ++ db0.fileRows⟩,
        st.fs⟩
    else ⟨500, [], db0, st.fs⟩

/-- Status code of GET /codebases/id on the single-process server: UUID
check, then os.Stat of the codebase directory decides 404. -/
def getCodebaseFilesMono (fs : Fs) (dirID : Str) : Nat :=
  if uuidValid dirID = false then 400
  else if pathExistsFs fs (join2 baseUploadDirS dirID) = false then 404
  else 200

/-- Does the ledger hold a codebases row for this id. -/
def dbHasCodebase (db : DbState) (codebaseID : Str) : Bool :=
  db.codebases.any (fun row => decide (row.1 = codebaseID))

/-- Status code of GET /codebases/id on the API server: UUID check, then a
ledger EXISTS query decides 404; the filesystem is never consulted. -/
def getCodebaseFilesA (db : DbState) (codebaseID : Str) : Nat :=
  if uuidValid codebaseID = false then 400
  else if dbHasCodebase db codebaseID = false then 404
  else 200

/-- The retrieval handlers' path sanitization: non-empty, then Clean, then
rejection when the cleaned path has ".." as a prefix or anywhere as a
substring.  Returns the cleaned path on acceptance. -/
def sanitizeQueryPath (filePath : Str) : Option Str :=
  if filePath = [] then none
  else
    let cp := cleanPath filePath
    if startsWithStr cp (strOf "..") || containsSub cp (strOf "..") then none
    else some cp

/-- Result of the raw download endpoint. -/
inductive FileResult where
  | badRequest : Str → FileResult
  | notFound : FileResult
  | ok : Str → Nat → List Nat → FileResult
deriving DecidableEq

/-- Body of downloadFile, shared verbatim by both servers up to the base
directory constant: UUID check, path sanitization, join, string-prefix
containment check, stat, directory rejection, then the streamed bytes with
the Content-Length taken from the file's size. -/
def downloadCore (baseRoot : Str) (fs : Fs) (id filePath : Str) : FileResult :=
  if uuidValid id = false then .badRequest (strOf "Invalid directory ID")
  else if filePath = [] then .badRequest (strOf "File path is required")
  else
    let cp := cleanPath filePath
    if startsWithStr cp (strOf "..") || containsSub cp (strOf "..") then
      .badRequest (strOf "Invalid file path")
    else
      let baseDir := join2 baseRoot id
      let fullPath := join2 baseDir cp
      if startsWithStr fullPath baseDir = false then .badRequest (strOf "Invalid file path")
      else if pathExistsFs fs fullPath = false then .notFound
      else if isDirFs fs fullPath then .badRequest (strOf "Cannot download directory")
      else
        let content := (lookupFile fs.files fullPath).getD []
        .ok (baseName cp) content.length content

/-- downloadFile of the single-process server. -/
def downloadFileM (fs : Fs) (dirID filePath : Str) : FileResult :=
  downloadCore baseUploadDirS fs dirID filePath

/-- downloadFile of the storage server. -/
def downloadFileB (fs : Fs) (codebaseID filePath : Str) : FileResult :=
  downloadCore baseStorageDirS fs codebaseID filePath

/-- Result of the content endpoint: on success it reports the cleaned path
and size, and returns the bytes inline only for text-classified content
(binary content gets a placeholder and a download url instead). -/
inductive ContentResult where
  | badRequest : Str → ContentResult
  | notFound : ContentResult
  | okText : Str → Nat → List Nat → ContentResult
  | okBinary : Str → Nat → ContentResult
deriving DecidableEq

/-- Body of readFileContent/getFileContent, shared verbatim by both servers
up to the base directory constant. -/
def contentCore (baseRoot : Str) (fs : Fs) (id filePath : Str) : ContentResult :=
  if uuidValid id = false then .badRequest (strOf "Invalid directory ID")
  else if filePath = [] then .badRequest (strOf "File path is required")
  else
    let cp := cleanPath filePath
    if startsWithStr cp (strOf "..") || containsSub cp (strOf "..") then
      .badRequest (strOf "Invalid file path")
    else
      let baseDir := join2 baseRoot id
      let fullPath := join2 baseDir cp
      if startsWithStr fullPath baseDir = false then .badRequest (strOf "Invalid file path")
      else if pathExistsFs fs fullPath = false then .notFound
      else if isDirFs fs fullPath then .badRequest (strOf "Cannot read directory as file")
      else
        let content := (lookupFile fs.files fullPath).getD []
        if isTextFile content then .okText cp content.length content
        else .okBinary cp content.length

/-- readFileContent of the single-process server. -/
def readFileContentM (fs : Fs) (dirID filePath : Str) : ContentResult :=
  contentCore baseUploadDirS fs dirID filePath

/-- getFileContent of the storage server. -/
def getFileContentB (fs : Fs) (codebaseID filePath : Str) : ContentResult :=
  contentCore baseStorageDirS fs codebaseID filePath

/-- Character order used for directory listings. -/
def charLtB (a b : Char) : Bool := decide (a.toNat < b.toNat)

/-- Lexicographic order on segment names. -/
def strLtB : Str → Str → Bool
  | [], [] => false
  | [], _ :: _ => true
  | _ :: _, [] => false
  | a :: as, b :: bs => charLtB a b || (decide (a = b) && strLtB as bs)

/-- Lexicographic order on segment lists; comparing full paths by their
segment lists yields exactly the depth-first preorder in which
filepath.WalkDir visits a tree (parents first, siblings in lexical order). -/
def segsLe : List Str → List Str → Bool
  | [], _ => true
  | _ :: _, [] => false
  | a :: as, b :: bs => strLtB a b || (decide (a = b) && segsLe as bs)

/-- Path comparison by segment lists. -/
def pathLe (a b : Str) : Bool := segsLe (splitOnSlash a) (splitOnSlash b)

/-- Insertion into a sorted path list. -/
def insertSorted (x : Str) : List Str → List Str
  | [] => [x]
  | y :: ys => if pathLe x y then x :: y :: ys else y :: insertSorted x ys

/-- Sort paths into WalkDir visit order. -/
def sortPaths : List Str → List Str
  | [] => []
  | x :: xs => insertSorted x (sortPaths xs)

/-- Every directory and regular-file path present in a filesystem. -/
def objectPaths (fs : Fs) : List Str := fs.dirs ++ fs.files.map (fun e => e.1)

/-- Is p strictly below root. -/
def strictUnder (root p : Str) : Bool := (root ++ ['/']).isPrefixOf p

/-- The sequence of paths filepath.WalkDir visits for a tree: the root first,
then every object below it, in depth-first lexical order. -/
def walkOrder (fs : Fs) (root : Str) : List Str :=
  root :: sortPaths ((objectPaths fs).filter (fun p => strictUnder root p))

/-- filepath.Rel(root, p) for the paths the walk visits: "." at the root,
otherwise the path with the root and its separator removed. -/
def relTo (root p : Str) : Str :=
  if p = root then strOf "." else p.drop (root.length + 1)

/-- One ZIP entry: its name, and its bytes (none for a directory entry,
whose name carries a trailing separator and which has no content). -/
structure ZipEntry where
  entryName : Str
  data : Option (List Nat)
deriving DecidableEq

/-- Model of createZipArchive, duplicated in both servers: walk the source
directory, skip the root itself, emit a content-free entry with a trailing
separator per directory and an entry with the file's exact bytes per regular
file.  (The backslash replacement of the source is the identity on the Unix
separator modelled here.) -/
def zipEntries (fs : Fs) (sourceDir : Str) : List ZipEntry :=
  (walkOrder fs sourceDir).filterMap (fun p =>
    let rel := relTo sourceDir p
    if rel = strOf "." then none
    else if isDirFs fs p then some ⟨rel ++ ['/'], none⟩
    else some ⟨rel, some ((lookupFile fs.files p).getD [])⟩)

/-- A path segment that names a real object: non-empty and not a dot
reference. -/
def goodSeg (s : Str) : Bool :=
  !(decide (s = []) || decide (s = strOf ".") || decide (s = strOf ".."))

/-- All segments of the path name real objects. -/
def goodPathB (p : Str) : Bool := (splitOnSlash p).all goodSeg

/-- Well-formedness of a filesystem tree rooted at root, as the walked
handlers find it on disk: object paths are distinct, built from real
segments, the root is an existing directory, and every object below the root
hangs off an existing directory. -/
def fsWfB (fs : Fs) (root : Str) : Bool :=
  decide (objectPaths fs).Nodup
    && (objectPaths fs).all goodPathB
    && goodPathB root
    && isDirFs fs root
    && (objectPaths fs).all (fun p => !strictUnder root p || isDirFs fs (dirName p))

/-- A fixed syntactically valid codebase identifier, used as a concrete
input. -/
def uuid0 : Str := strOf "00000000-0000-0000-0000-000000000000"

/-- The empty filesystem. -/
def emptyFs : Fs := ⟨[], []⟩

/-- A concrete two-file codebase tree used as an archive test input. -/
def fsW : Fs :=
  ⟨[(strOf "uploads/u/a.txt", [104, 105]), (strOf "uploads/u/sub/b.txt", [1, 2])],
   [strOf "uploads", strOf "uploads/u", strOf "uploads/u/sub"]⟩

/-- The empty metadata ledger. -/
def emptyDb : DbState := ⟨[], []⟩

/-! Lemmas about splitting and joining on the separator. -/

theorem splitOnSlash_ne_nil (p : Str) : splitOnSlash p ≠ [] := by
  cases p with
  | nil => simp [splitOnSlash]
  | cons c rest =>
    simp only [splitOnSlash]
    cases h : splitOnSlash rest with
    | nil => simp
    | cons seg segs => by_cases hc : c = '/' <;> simp [hc]

theorem splitOnSlash_append (x y : Str) :
    splitOnSlash (x ++ '/' :: y) = splitOnSlash x ++ splitOnSlash y := by
  induction x with
  | nil =>
    simp only [List.nil_append, splitOnSlash]
    cases h : splitOnSlash y with
    | nil => exact absurd h (splitOnSlash_ne_nil y)
    | cons seg segs => simp
  | cons c x ih =>
    cases hx : splitOnSlash x with
    | nil => exact absurd hx (splitOnSlash_ne_nil x)
    | cons s ss =>
      have hx2 : splitOnSlash (x ++ '/' :: y) = s :: (ss ++ splitOnSlash y) := by
        rw [ih, hx]; simp
      show splitOnSlash (c :: (x ++ '/' :: y)) = splitOnSlash (c :: x) ++ splitOnSlash y
      simp only [splitOnSlash]
      rw [hx2, hx]
      by_cases hc : c = '/' <;> simp [hc]

theorem not_slash_mem_splitOnSlash :
    ∀ (p seg : Str), seg ∈ splitOnSlash p → '/' ∉ seg := by
  intro p
  induction p with
  | nil =>
    intro seg h
    simp [splitOnSlash] at h
    simp [h]
  | cons c rest ih =>
    intro seg h
    cases hs : splitOnSlash rest with
    | nil => exact absurd hs (splitOnSlash_ne_nil rest)
    | cons s ss =>
      simp only [splitOnSlash, hs] at h
      by_cases hc : c = '/'
      · simp only [hc, if_pos rfl] at h
        rcases List.mem_cons.mp h with h1 | h1
        · simp [h1]
        · exact ih seg (hs ▸ h1)
      · simp only [if_neg hc] at h
        rcases List.mem_cons.mp h with h1 | h1
        · subst h1
          intro hmem
          rcases List.mem_cons.mp hmem with h2 | h2
          · exact hc h2.symm
          · exact ih s (hs ▸ List.mem_cons_self s ss) h2
        · exact ih seg (hs ▸ List.mem_cons_of_mem s h1)

theorem splitOnSlash_no_slash (p : Str) (h : '/' ∉ p) : splitOnSlash p = [p] := by
  induction p with
  | nil => simp [splitOnSlash]
  | cons c rest ih =>
    have hc : c ≠ '/' := fun hc => h (hc ▸ List.mem_cons_self c rest)
    have hrest : '/' ∉ rest := fun hm => h (List.mem_cons_of_mem c hm)
    simp only [splitOnSlash, ih hrest]
    simp [fun hx => hc hx]

theorem splitOnSlash_joinSegs :
    ∀ (segs : List Str), segs ≠ [] → (∀ s ∈ segs, '/' ∉ s) →
      splitOnSlash (joinSegs segs) = segs := by
  intro segs
  induction segs with
  | nil => intro h; exact absurd rfl h
  | cons s rest ih =>
    intro _ hns
    cases rest with
    | nil => exact splitOnSlash_no_slash s (hns s (List.mem_cons_self s []))
    | cons t ts =>
      have : joinSegs (s :: t :: ts) = s ++ '/' :: joinSegs (t :: ts) := rfl
      rw [this, splitOnSlash_append,
        splitOnSlash_no_slash s (hns s (List.mem_cons_self s (t :: ts))),
        ih (by simp) (fun x hx => hns x (List.mem_cons_of_mem s hx))]
      simp

theorem joinSegs_append :
    ∀ (A B : List Str), A ≠ [] → B ≠ [] →
      joinSegs (A ++ B) = joinSegs A ++ '/' :: joinSegs B := by
  intro A
  induction A with
  | nil => intro B h; exact absurd rfl h
  | cons a A2 ih =>
    intro B _ hB
    cases A2 with
    | nil =>
      cases B with
      | nil => exact absurd rfl hB
      | cons b bs => rfl
    | cons a2 A3 =>
      have h1 : joinSegs (a :: ((a2 :: A3) ++ B)) = a ++ '/' :: joinSegs ((a2 :: A3) ++ B) := by
        rw [List.cons_append]
        rfl
      have h2 : (a :: a2 :: A3) ++ B = a :: ((a2 :: A3) ++ B) := rfl
      rw [h2, h1, ih B (by simp) hB]
      show a ++ '/' :: (joinSegs (a2 :: A3) ++ '/' :: joinSegs B)
        = (a ++ '/' :: joinSegs (a2 :: A3)) ++ '/' :: joinSegs B
      rw [List.append_assoc]
      rfl

theorem joinSegs_cons_ne_nil (s : Str) (rest : List Str) (h : s ≠ []) :
    joinSegs (s :: rest) ≠ [] := by
  cases rest with
  | nil => exact h
  | cons t ts =>
    have : joinSegs (s :: t :: ts) = s ++ '/' :: joinSegs (t :: ts) := rfl
    rw [this]
    cases s with
    | nil => exact absurd rfl h
    | cons c cs => simp

theorem startsWithStr_iff (s pre : Str) : startsWithStr s pre = true ↔ pre <+: s := by
  simp [startsWithStr, List.isPrefixOf_iff_prefix]

theorem containsSub_iff (s t : Str) : containsSub s t = true ↔ t <:+: s := by
  constructor
  · intro h
    rcases List.any_eq_true.mp h with ⟨u, hu, hpre⟩
    exact List.infix_iff_prefix_suffix.mpr
      ⟨u, List.isPrefixOf_iff_prefix.mp hpre, (List.mem_tails u s).mp hu⟩
  · intro h
    rcases List.infix_iff_prefix_suffix.mp h with ⟨u, hpre, hsuf⟩
    exact List.any_eq_true.mpr
      ⟨u, (List.mem_tails u s).mpr hsuf, List.isPrefixOf_iff_prefix.mpr hpre⟩

theorem prefix_cons_cons (c : Char) {s t : Str} (h : s <+: t) : (c :: s) <+: (c :: t) := by
  rcases h with ⟨r, hr⟩
  exact ⟨r, by rw [List.cons_append, hr]⟩

theorem infix_cons_of_infix (c : Char) {s t : Str} (h : s <:+: t) : s <:+: (c :: t) := by
  rcases h with ⟨l, r, hl⟩
  refine ⟨c :: l, r, ?_⟩
  rw [← hl]
  simp

theorem splitOnSlash_head_lead :
    ∀ (p s : Str) (ss : List Str), splitOnSlash p = s :: ss → s <+: p := by
  intro p
  induction p with
  | nil =>
    intro s ss h
    simp only [splitOnSlash, List.cons.injEq] at h
    simp [← h.1]
  | cons c rest ih =>
    intro s ss h
    cases hs : splitOnSlash rest with
    | nil => exact absurd hs (splitOnSlash_ne_nil rest)
    | cons s2 ss2 =>
      simp only [splitOnSlash, hs] at h
      by_cases hc : c = '/'
      · rw [if_pos hc] at h
        simp only [List.cons.injEq] at h
        simp [← h.1]
      · rw [if_neg hc] at h
        simp only [List.cons.injEq] at h
        rw [← h.1]
        exact prefix_cons_cons c (ih s2 ss2 hs)

theorem mem_splitOnSlash_infix :
    ∀ (p seg : Str), seg ∈ splitOnSlash p → seg <:+: p := by
  intro p
  induction p with
  | nil =>
    intro seg h
    simp [splitOnSlash] at h
    simp [h]
  | cons c rest ih =>
    intro seg h
    cases hs : splitOnSlash rest with
    | nil => exact absurd hs (splitOnSlash_ne_nil rest)
    | cons s ss =>
      simp only [splitOnSlash, hs] at h
      by_cases hc : c = '/'
      · rw [if_pos hc] at h
        rcases List.mem_cons.mp h with h1 | h1
        · simp [h1]
        · exact infix_cons_of_infix c (ih seg (hs ▸ h1))
      · rw [if_neg hc] at h
        rcases List.mem_cons.mp h with h1 | h1
        · subst h1
          exact (prefix_cons_cons c (splitOnSlash_head_lead rest s ss hs)).isInfix
        · exact infix_cons_of_infix c (ih seg (hs ▸ List.mem_cons_of_mem s h1))

theorem hasDotDotSeg_false_of_not_contains (p : Str)
    (h : containsSub p (strOf "..") = false) : hasDotDotSeg p = false := by
  rw [← Bool.not_eq_true] at h ⊢
  intro hdd
  apply h
  rcases List.any_eq_true.mp hdd with ⟨seg, hmem, hseg⟩
  have hseg2 : seg = strOf ".." := of_decide_eq_true hseg
  exact (containsSub_iff p (strOf "..")).mpr (hseg2 ▸ mem_splitOnSlash_infix p seg hmem)

/-! Equation lemmas for the Clean segment loop, and its stack invariants. -/

theorem cleanStep_drop (rooted : Bool) (st : List Str) (seg : Str)
    (h : seg = [] ∨ seg = strOf ".") : cleanStep rooted st seg = st := by
  unfold cleanStep
  rw [if_pos h]

theorem cleanStep_dd_nil (rooted : Bool) :
    cleanStep rooted [] (strOf "..") = if rooted then [] else [strOf ".."] := by
  unfold cleanStep
  rw [if_neg (by decide), if_pos rfl]

theorem cleanStep_dd_top_dd (rooted : Bool) (top : Str) (rest : List Str)
    (h : top = strOf "..") :
    cleanStep rooted (top :: rest) (strOf "..") = strOf ".." :: top :: rest := by
  unfold cleanStep
  rw [if_neg (by decide), if_pos rfl]
  show (if top = strOf ".." then strOf ".." :: top :: rest else rest) = _
  rw [if_pos h]

theorem cleanStep_dd_top (rooted : Bool) (top : Str) (rest : List Str)
    (h : top ≠ strOf "..") :
    cleanStep rooted (top :: rest) (strOf "..") = rest := by
  unfold cleanStep
  rw [if_neg (by decide), if_pos rfl]
  show (if top = strOf ".." then strOf ".." :: top :: rest else rest) = _
  rw [if_neg h]

theorem cleanStep_push (rooted : Bool) (st : List Str) (seg : Str)
    (h1 : ¬(seg = [] ∨ seg = strOf ".")) (h2 : seg ≠ strOf "..") :
    cleanStep rooted st seg = seg :: st := by
  unfold cleanStep
  rw [if_neg h1, if_neg h2]

theorem foldl_cleanStep_push (rooted : Bool) :
    ∀ (segs st : List Str),
      (∀ s ∈ segs, s ≠ strOf "..") →
      segs.foldl (cleanStep rooted) st
        = (segs.filter (fun s => !(decide (s = []) || decide (s = strOf ".")))).reverse ++ st := by
  intro segs
  induction segs with
  | nil => intro st _; simp
  | cons s rest ih =>
    intro st h
    have hs : s ≠ strOf ".." := h s (List.mem_cons_self s rest)
    have hrest : ∀ x ∈ rest, x ≠ strOf ".." := fun x hx => h x (List.mem_cons_of_mem s hx)
    rw [List.foldl_cons]
    by_cases h1 : s = [] ∨ s = strOf "."
    · rw [cleanStep_drop rooted st s h1, ih st hrest, List.filter_cons]
      have hp : (!(decide (s = []) || decide (s = strOf "."))) = false := by
        rcases h1 with h1 | h1 <;> simp [h1]
      rw [hp]
      simp
    · rw [cleanStep_push rooted st s h1 hs, ih (s :: st) hrest, List.filter_cons]
      have hp : (!(decide (s = []) || decide (s = strOf "."))) = true := by
        push_neg at h1
        simp [h1.1, h1.2]
      rw [hp]
      simp

theorem foldl_cleanStep_rooted_no_dd :
    ∀ (segs st : List Str), (∀ s ∈ st, s ≠ strOf "..") →
      ∀ s ∈ segs.foldl (cleanStep true) st, s ≠ strOf ".." := by
  intro segs
  induction segs with
  | nil => intro st h; simpa using h
  | cons seg rest ih =>
    intro st h
    rw [List.foldl_cons]
    apply ih
    intro s hs
    by_cases h1 : seg = [] ∨ seg = strOf "."
    · rw [cleanStep_drop true st seg h1] at hs
      exact h s hs
    · by_cases h2 : seg = strOf ".."
      · subst h2
        cases st with
        | nil =>
          rw [cleanStep_dd_nil true] at hs
          simp at hs
        | cons top rest2 =>
          have htop : top ≠ strOf ".." := h top (List.mem_cons_self top rest2)
          rw [cleanStep_dd_top true top rest2 htop] at hs
          exact h s (List.mem_cons_of_mem top hs)
      · rw [cleanStep_push true st seg h1 h2] at hs
        rcases List.mem_cons.mp hs with h3 | h3
        · subst h3; exact h2
        · exact h s h3

theorem foldl_cleanStep_ddsplit :
    ∀ (segs st : List Str),
      (∃ A B, st = A ++ B ∧ (∀ s ∈ A, s ≠ strOf "..") ∧ (∀ s ∈ B, s = strOf "..")) →
      ∃ A B, segs.foldl (cleanStep false) st = A ++ B
        ∧ (∀ s ∈ A, s ≠ strOf "..") ∧ (∀ s ∈ B, s = strOf "..") := by
  intro segs
  induction segs with
  | nil => intro st h; simpa using h
  | cons seg rest ih =>
    intro st h
    rw [List.foldl_cons]
    apply ih
    rcases h with ⟨A, B, rfl, hA, hB⟩
    by_cases h1 : seg = [] ∨ seg = strOf "."
    · rw [cleanStep_drop false _ seg h1]
      exact ⟨A, B, rfl, hA, hB⟩
    · by_cases h2 : seg = strOf ".."
      · subst h2
        cases A with
        | nil =>
          cases B with
          | nil =>
            rw [show ([] : List Str) ++ [] = [] from rfl, cleanStep_dd_nil false]
            exact ⟨[], [strOf ".."], by simp, by simp, by simp⟩
          | cons b bs =>
            have hb : b = strOf ".." := hB b (List.mem_cons_self b bs)
            rw [show ([] : List Str) ++ (b :: bs) = b :: bs from rfl,
              cleanStep_dd_top_dd false b bs hb]
            exact ⟨[], strOf ".." :: b :: bs, by simp, by simp,
              fun s hs => by
                rcases List.mem_cons.mp hs with h3 | h3
                · exact h3
                · exact hB s h3⟩
        | cons a A2 =>
          have ha : a ≠ strOf ".." := hA a (List.mem_cons_self a A2)
          rw [show (a :: A2) ++ B = a :: (A2 ++ B) from rfl, cleanStep_dd_top false a _ ha]
          exact ⟨A2, B, rfl, fun s hs => hA s (List.mem_cons_of_mem a hs), hB⟩
      · rw [cleanStep_push false _ seg h1 h2]
        refine ⟨seg :: A, B, by simp, ?_, hB⟩
        intro s hs
        rcases List.mem_cons.mp hs with h3 | h3
        · subst h3; exact h2
        · exact hA s h3

theorem foldl_cleanStep_mem_pred (rooted : Bool) (P : Str → Prop)
    (hdd : P (strOf "..")) :
    ∀ (segs st : List Str), (∀ s ∈ segs, ¬(s = [] ∨ s = strOf ".") → P s) →
      (∀ s ∈ st, P s) →
      ∀ s ∈ segs.foldl (cleanStep rooted) st, P s := by
  intro segs
  induction segs with
  | nil => intro st _ hst; simpa using hst
  | cons seg rest ih =>
    intro st hsegs hst
    rw [List.foldl_cons]
    apply ih
    · exact fun x hx => hsegs x (List.mem_cons_of_mem seg hx)
    · intro s hs
      by_cases h1 : seg = [] ∨ seg = strOf "."
      · rw [cleanStep_drop rooted st seg h1] at hs
        exact hst s hs
      · by_cases h2 : seg = strOf ".."
        · subst h2
          cases st with
          | nil =>
            rw [cleanStep_dd_nil rooted] at hs
            cases rooted with
            | false =>
              simp at hs
              subst hs
              exact hdd
            | true => simp at hs
          | cons top rest2 =>
            by_cases h3 : top = strOf ".."
            · rw [cleanStep_dd_top_dd rooted top rest2 h3] at hs
              rcases List.mem_cons.mp hs with h4 | h4
              · subst h4; exact hdd
              · exact hst s h4
            · rw [cleanStep_dd_top rooted top rest2 h3] at hs
              exact hst s (List.mem_cons_of_mem top hs)
        · rw [cleanStep_push rooted st seg h1 h2] at hs
          rcases List.mem_cons.mp hs with h3 | h3
          · exact h3 ▸ hsegs seg (List.mem_cons_self seg rest) h1
          · exact hst s h3

/-! Characterizations of cleanPath and the parent-reference prefix property. -/

theorem cleanPath_not_rooted (p : Str) (hp : p ≠ [])
    (hr : startsWithStr p (strOf "/") = false) :
    cleanPath p =
      (if ((splitOnSlash p).foldl (cleanStep false) []).reverse = [] then strOf "."
       else joinSegs (((splitOnSlash p).foldl (cleanStep false) []).reverse)) := by
  unfold cleanPath
  rw [if_neg hp]
  simp [hr]

theorem cleanPath_rooted (p : Str) (hp : p ≠ [])
    (hr : startsWithStr p (strOf "/") = true) :
    cleanPath p =
      (if ((splitOnSlash p).foldl (cleanStep true) []).reverse = [] then strOf "/"
       else '/' :: joinSegs (((splitOnSlash p).foldl (cleanStep true) []).reverse)) := by
  unfold cleanPath
  rw [if_neg hp]
  simp [hr]
  rfl

theorem foldl_cleanStep_stack_ne_nil (rooted : Bool) (p : Str) :
    ∀ s ∈ (splitOnSlash p).foldl (cleanStep rooted) [], s ≠ [] := by
  apply foldl_cleanStep_mem_pred rooted (fun s => s ≠ []) (by decide)
  · intro s _ hgood h
    exact hgood (Or.inl h)
  · simp

theorem foldl_cleanStep_stack_no_slash (rooted : Bool) (p : Str) :
    ∀ s ∈ (splitOnSlash p).foldl (cleanStep rooted) [], '/' ∉ s := by
  apply foldl_cleanStep_mem_pred rooted (fun s => '/' ∉ s) (by decide)
  · intro s hs _
    exact not_slash_mem_splitOnSlash p s hs
  · simp

theorem cleanPath_ne_nil (p : Str) : cleanPath p ≠ [] := by
  by_cases hp : p = []
  · subst hp; decide
  cases hr : startsWithStr p (strOf "/") with
  | true =>
    rw [cleanPath_rooted p hp hr]
    by_cases hout : ((splitOnSlash p).foldl (cleanStep true) []).reverse = []
    · rw [if_pos hout]; decide
    · rw [if_neg hout]; simp
  | false =>
    rw [cleanPath_not_rooted p hp hr]
    by_cases hout : ((splitOnSlash p).foldl (cleanStep false) []).reverse = []
    · rw [if_pos hout]; decide
    · rw [if_neg hout]
      obtain ⟨o, os, ho⟩ : ∃ o os,
          ((splitOnSlash p).foldl (cleanStep false) []).reverse = o :: os := by
        cases h2 : ((splitOnSlash p).foldl (cleanStep false) []).reverse with
        | nil => exact absurd h2 hout
        | cons o os => exact ⟨o, os, rfl⟩
      rw [ho]
      apply joinSegs_cons_ne_nil
      exact foldl_cleanStep_stack_ne_nil false p o
        (List.mem_reverse.mp (ho ▸ List.mem_cons_self o os))

theorem dd_prefix_of_mem_clean (p : Str)
    (h : strOf ".." ∈ splitOnSlash (cleanPath p)) :
    startsWithStr (cleanPath p) (strOf "..") = true := by
  by_cases hp : p = []
  · subst hp
    revert h
    decide
  cases hr : startsWithStr p (strOf "/") with
  | true =>
    exfalso
    rw [cleanPath_rooted p hp hr] at h
    have hnodd : ∀ s ∈ (splitOnSlash p).foldl (cleanStep true) [], s ≠ strOf ".." :=
      foldl_cleanStep_rooted_no_dd (splitOnSlash p) [] (by simp)
    by_cases hout : ((splitOnSlash p).foldl (cleanStep true) []).reverse = []
    · rw [if_pos hout] at h
      revert h
      decide
    · rw [if_neg hout] at h
      obtain ⟨o, os, ho⟩ : ∃ o os,
          ((splitOnSlash p).foldl (cleanStep true) []).reverse = o :: os := by
        cases h2 : ((splitOnSlash p).foldl (cleanStep true) []).reverse with
        | nil => exact absurd h2 hout
        | cons o os => exact ⟨o, os, rfl⟩
      rw [ho] at h
      have hsplit : splitOnSlash ('/' :: joinSegs (o :: os)) = [] :: (o :: os) := by
        have h3 : ('/' :: joinSegs (o :: os) : Str) = [] ++ '/' :: joinSegs (o :: os) := rfl
        rw [h3, splitOnSlash_append]
        rw [splitOnSlash_joinSegs (o :: os) (by simp) ?slf]
        · rfl
        case slf =>
          intro s hs
          exact foldl_cleanStep_stack_no_slash true p s
            (List.mem_reverse.mp (ho ▸ hs))
      rw [hsplit] at h
      rcases List.mem_cons.mp h with h1 | h1
      · exact absurd h1.symm (by decide)
      · exact hnodd (strOf "..") (List.mem_reverse.mp (ho ▸ h1)) rfl
  | false =>
    rw [cleanPath_not_rooted p hp hr] at h ⊢
    obtain ⟨A, B, hAB, hA, hB⟩ :=
      foldl_cleanStep_ddsplit (splitOnSlash p) [] ⟨[], [], rfl, by simp, by simp⟩
    by_cases hout : ((splitOnSlash p).foldl (cleanStep false) []).reverse = []
    · rw [if_pos hout] at h
      exact absurd h (by decide)
    · rw [if_neg hout] at h ⊢
      have hsl : ∀ s ∈ ((splitOnSlash p).foldl (cleanStep false) []).reverse, '/' ∉ s :=
        fun s hs => foldl_cleanStep_stack_no_slash false p s (List.mem_reverse.mp hs)
      rw [splitOnSlash_joinSegs _ hout hsl] at h
      have hmemB : strOf ".." ∈ B := by
        rw [hAB, List.reverse_append] at h
        rcases List.mem_append.mp h with h1 | h1
        · exact List.mem_reverse.mp h1
        · exact absurd rfl (hA _ (List.mem_reverse.mp h1))
      obtain ⟨b, bs, hb⟩ : ∃ b bs, B.reverse = b :: bs := by
        cases hBrev : B.reverse with
        | nil =>
          rw [List.reverse_eq_nil_iff] at hBrev
          subst hBrev
          cases hmemB
        | cons b bs => exact ⟨b, bs, rfl⟩
      have hbdd : b = strOf ".." := hB b (List.mem_reverse.mp (hb ▸ List.mem_cons_self b bs))
      rw [hAB, List.reverse_append, hb, hbdd]
      have hsh : (strOf ".." :: bs) ++ A.reverse = strOf ".." :: (bs ++ A.reverse) := rfl
      rw [hsh]
      rcases hrest : bs ++ A.reverse with _ | ⟨r, rs⟩
      · decide
      · have h5 : joinSegs (strOf ".." :: r :: rs) = strOf ".." ++ '/' :: joinSegs (r :: rs) := rfl
        rw [h5]
        exact (startsWithStr_iff _ _).mpr (List.prefix_append _ _)

/-! Joining a clean base directory with a sanitized client path. -/

theorem goodSeg_spec {s : Str} (h : goodSeg s = true) :
    s ≠ [] ∧ s ≠ strOf "." ∧ s ≠ strOf ".." := by
  simp only [goodSeg, Bool.not_eq_true', Bool.or_eq_false_iff, decide_eq_false_iff_not] at h
  exact ⟨h.1.1, h.1.2, h.2⟩

theorem cleanPath_join_noDD (rootSegs : List Str) (cp : Str)
    (hne : rootSegs ≠ [])
    (hgood : ∀ s ∈ rootSegs, goodSeg s = true ∧ '/' ∉ s)
    (hdd : hasDotDotSeg cp = false) :
    cleanPath (joinSegs rootSegs ++ '/' :: cp)
      = (if (splitOnSlash cp).filter (fun s => !(decide (s = []) || decide (s = strOf "."))) = []
         then joinSegs rootSegs
         else joinSegs rootSegs ++ '/' ::
           joinSegs ((splitOnSlash cp).filter
             (fun s => !(decide (s = []) || decide (s = strOf "."))))) := by
  obtain ⟨r0, rrest, rfl⟩ : ∃ r0 rrest, rootSegs = r0 :: rrest := by
    cases rootSegs with
    | nil => exact absurd rfl hne
    | cons r0 rrest => exact ⟨r0, rrest, rfl⟩
  obtain ⟨ch, chs, hr0⟩ : ∃ ch chs, r0 = ch :: chs := by
    cases hr0 : r0 with
    | nil =>
      exact absurd hr0 (goodSeg_spec (hgood r0 (List.mem_cons_self r0 rrest)).1).1
    | cons ch chs => exact ⟨ch, chs, rfl⟩
  have hch : ch ≠ '/' := by
    intro hc
    exact (hgood r0 (List.mem_cons_self r0 rrest)).2 (hr0 ▸ hc ▸ List.mem_cons_self ch chs)
  obtain ⟨X, hX⟩ : ∃ X, joinSegs (r0 :: rrest) = ch :: X := by
    cases rrest with
    | nil => exact ⟨chs, by rw [show joinSegs [r0] = r0 from rfl, hr0]⟩
    | cons t ts =>
      refine ⟨chs ++ '/' :: joinSegs (t :: ts), ?_⟩
      rw [show joinSegs (r0 :: t :: ts) = r0 ++ '/' :: joinSegs (t :: ts) from rfl, hr0]
      rfl
  have hPne : joinSegs (r0 :: rrest) ++ '/' :: cp ≠ [] := by
    rw [hX]
    simp
  have hPr : startsWithStr (joinSegs (r0 :: rrest) ++ '/' :: cp) (strOf "/") = false := by
    rw [hX]
    show List.isPrefixOf ['/'] (ch :: (X ++ '/' :: cp)) = false
    show (('/' : Char) == ch && List.isPrefixOf [] (X ++ '/' :: cp)) = false
    rw [beq_eq_false_iff_ne.mpr (Ne.symm hch)]
    rfl
  rw [cleanPath_not_rooted _ hPne hPr, splitOnSlash_append,
    splitOnSlash_joinSegs (r0 :: rrest) hne (fun s hs => (hgood s hs).2), List.foldl_append]
  have hpush1 : (r0 :: rrest).foldl (cleanStep false) []
      = (r0 :: rrest).reverse := by
    rw [foldl_cleanStep_push false (r0 :: rrest) []
      (fun s hs => (goodSeg_spec (hgood s hs).1).2.2)]
    rw [List.filter_eq_self.mpr, List.append_nil]
    intro s hs
    have h1 := goodSeg_spec (hgood s hs).1
    simp [h1.1, h1.2.1]
  rw [hpush1]
  have hnodd : ∀ s ∈ splitOnSlash cp, s ≠ strOf ".." := by
    intro s hs heq
    have : hasDotDotSeg cp = true :=
      List.any_eq_true.mpr ⟨s, hs, decide_eq_true heq⟩
    rw [this] at hdd
    cases hdd
  rw [foldl_cleanStep_push false (splitOnSlash cp) ((r0 :: rrest).reverse) hnodd]
  rw [List.reverse_append, List.reverse_reverse, List.reverse_reverse]
  have houtne : (r0 :: rrest) ++
      (splitOnSlash cp).filter (fun s => !(decide (s = []) || decide (s = strOf "."))) ≠ [] := by
    simp
  rw [if_neg houtne]
  by_cases hF : (splitOnSlash cp).filter
      (fun s => !(decide (s = []) || decide (s = strOf "."))) = []
  · rw [if_pos hF, hF, List.append_nil]
  · rw [if_neg hF, joinSegs_append (r0 :: rrest) _ (by simp) hF]

theorem append_cons_ne_nil (a : Str) (c : Char) (b : Str) : a ++ c :: b ≠ [] := by
  intro h
  have := congrArg List.length h
  simp at this

theorem join2_clean_of_ne (a b : Str) (ha : a ≠ []) (hb : b ≠ []) :
    join2 a b = cleanPath (a ++ '/' :: b) := by
  unfold join2
  rw [if_neg (fun h => ha h.1), if_neg ha, if_neg hb]

theorem join2_dotBase (nm id : Str) (hnm : goodSeg nm = true ∧ '/' ∉ nm)
    (hid : goodSeg id = true ∧ '/' ∉ id) :
    join2 (strOf "." ++ '/' :: nm) id = nm ++ '/' :: id := by
  rw [join2_clean_of_ne _ id (by simp [strOf]) (goodSeg_spec hid.1).1]
  have hsh : (strOf "." ++ '/' :: nm) ++ '/' :: id
      = joinSegs [strOf ".", nm, id] := by
    show (strOf "." ++ '/' :: nm) ++ '/' :: id = strOf "." ++ '/' :: joinSegs [nm, id]
    show (strOf "." ++ '/' :: nm) ++ '/' :: id = strOf "." ++ '/' :: (nm ++ '/' :: id)
    simp
  rw [hsh]
  have hPne : joinSegs [strOf ".", nm, id] ≠ [] := by
    show strOf "." ++ '/' :: joinSegs [nm, id] ≠ []
    exact append_cons_ne_nil _ _ _
  have hPr : startsWithStr (joinSegs [strOf ".", nm, id]) (strOf "/") = false := by
    show List.isPrefixOf ['/'] ('.' :: ('/' :: joinSegs [nm, id])) = false
    show (('/' : Char) == '.' && List.isPrefixOf [] ('/' :: joinSegs [nm, id])) = false
    rfl
  rw [cleanPath_not_rooted _ hPne hPr]
  have hsplit : splitOnSlash (joinSegs [strOf ".", nm, id]) = [strOf ".", nm, id] := by
    apply splitOnSlash_joinSegs _ (by simp)
    intro s hs
    rcases List.mem_cons.mp hs with h1 | h1
    · subst h1; decide
    rcases List.mem_cons.mp h1 with h2 | h2
    · subst h2; exact hnm.2
    rcases List.mem_cons.mp h2 with h3 | h3
    · subst h3; exact hid.2
    · cases h3
  rw [hsplit]
  have hpush : ([strOf ".", nm, id] : List Str).foldl (cleanStep false) [] = [id, nm] := by
    rw [foldl_cleanStep_push false _ []]
    · have h1 := goodSeg_spec hnm.1
      have h2 := goodSeg_spec hid.1
      rw [List.filter_cons, List.filter_cons, List.filter_cons]
      simp [h1.1, h1.2.1, h2.1, h2.2.1]
    · intro s hs
      rcases List.mem_cons.mp hs with h1 | h1
      · subst h1; decide
      rcases List.mem_cons.mp h1 with h2 | h2
      · subst h2; exact (goodSeg_spec hnm.1).2.2
      rcases List.mem_cons.mp h2 with h3 | h3
      · subst h3; exact (goodSeg_spec hid.1).2.2
      · cases h3
  rw [hpush]
  rw [show ([id, nm] : List Str).reverse = [nm, id] from rfl]
  rw [if_neg (by simp : ¬([nm, id] : List Str) = [])]
  rfl

theorem uuidCharsOk_chars :
    ∀ (s : Str) (i : Nat), uuidCharsOk i s = true →
      ∀ c ∈ s, isHexDigit c = true ∨ c = '-' := by
  intro s
  induction s with
  | nil => intro i _ c hc; cases hc
  | cons d rest ih =>
    intro i h c hc
    simp only [uuidCharsOk, Bool.and_eq_true] at h
    rcases List.mem_cons.mp hc with h3 | h3
    · subst h3
      by_cases hi : i = 8 ∨ i = 13 ∨ i = 18 ∨ i = 23
      · right
        rw [if_pos hi] at h
        exact of_decide_eq_true h.1
      · left
        rw [if_neg hi] at h
        exact h.1
    · exact ih (i + 1) h.2 c h3

theorem uuid_goodSeg (id : Str) (h : uuidValid id = true) :
    goodSeg id = true ∧ '/' ∉ id := by
  have h2 : id.length = 36 ∧ uuidCharsOk 0 id = true := by
    simpa [uuidValid] using h
  have hlen36 : id.length = 36 := h2.1
  have hmem := uuidCharsOk_chars id 0 h2.2
  constructor
  · simp only [goodSeg, Bool.not_eq_true', Bool.or_eq_false_iff, decide_eq_false_iff_not]
    refine ⟨⟨?_, ?_⟩, ?_⟩ <;> intro heq <;> rw [heq] at hlen36 <;> simp [strOf] at hlen36
  · intro hsl
    rcases hmem '/' hsl with h1 | h1
    · exact absurd h1 (by decide)
    · exact absurd h1 (by decide)

theorem baseUploadDirS_eq : baseUploadDirS = strOf "." ++ '/' :: strOf "uploads" := by decide

theorem baseStorageDirS_eq : baseStorageDirS = strOf "." ++ '/' :: strOf "storage" := by decide

theorem baseDir_upload_eq (id : Str) (hid : uuidValid id = true) :
    join2 baseUploadDirS id = strOf "uploads" ++ '/' :: id := by
  rw [baseUploadDirS_eq]
  exact join2_dotBase _ id (by decide) (uuid_goodSeg id hid)

theorem baseDir_storage_eq (id : Str) (hid : uuidValid id = true) :
    join2 baseStorageDirS id = strOf "storage" ++ '/' :: id := by
  rw [baseStorageDirS_eq]
  exact join2_dotBase _ id (by decide) (uuid_goodSeg id hid)

theorem join2_baseDir_cases (nm id cp : Str) (hnm : goodSeg nm = true ∧ '/' ∉ nm)
    (hid : uuidValid id = true) (hdd : hasDotDotSeg cp = false) (hcp : cp ≠ []) :
    (join2 (nm ++ '/' :: id) cp = nm ++ '/' :: id
      ∨ ∃ r, r ≠ [] ∧ join2 (nm ++ '/' :: id) cp = (nm ++ '/' :: id) ++ '/' :: r)
      ∧ startsWithStr (join2 (nm ++ '/' :: id) cp) (nm ++ '/' :: id) = true := by
  have hid2 := uuid_goodSeg id hid
  have hj : joinSegs [nm, id] = nm ++ '/' :: id := rfl
  have hgood : ∀ s ∈ ([nm, id] : List Str), goodSeg s = true ∧ '/' ∉ s := by
    intro s hs
    rcases List.mem_cons.mp hs with h1 | h1
    · subst h1; exact hnm
    rcases List.mem_cons.mp h1 with h2 | h2
    · subst h2; exact hid2
    · cases h2
  have hmain : join2 (nm ++ '/' :: id) cp
      = (if (splitOnSlash cp).filter (fun s => !(decide (s = []) || decide (s = strOf "."))) = []
         then nm ++ '/' :: id
         else (nm ++ '/' :: id) ++ '/' ::
           joinSegs ((splitOnSlash cp).filter
             (fun s => !(decide (s = []) || decide (s = strOf "."))))) := by
    rw [join2_clean_of_ne _ cp (append_cons_ne_nil _ _ _) hcp, ← hj,
      cleanPath_join_noDD [nm, id] cp (by simp) hgood hdd, hj]
  by_cases hF : (splitOnSlash cp).filter
      (fun s => !(decide (s = []) || decide (s = strOf "."))) = []
  · rw [hmain, if_pos hF]
    exact ⟨Or.inl rfl, (startsWithStr_iff _ _).mpr (List.prefix_refl _)⟩
  · rw [hmain, if_neg hF]
    have hFne : joinSegs ((splitOnSlash cp).filter
        (fun s => !(decide (s = []) || decide (s = strOf ".")))) ≠ [] := by
      obtain ⟨f, fs, hf⟩ : ∃ f fs, (splitOnSlash cp).filter
          (fun s => !(decide (s = []) || decide (s = strOf "."))) = f :: fs := by
        cases h2 : (splitOnSlash cp).filter
            (fun s => !(decide (s = []) || decide (s = strOf "."))) with
        | nil => exact absurd h2 hF
        | cons f fs => exact ⟨f, fs, rfl⟩
      rw [hf]
      apply joinSegs_cons_ne_nil
      have hfmem : f ∈ (splitOnSlash cp).filter
          (fun s => !(decide (s = []) || decide (s = strOf "."))) :=
        hf ▸ List.mem_cons_self f fs
      have := List.of_mem_filter hfmem
      simp only [Bool.not_eq_true', Bool.or_eq_false_iff, decide_eq_false_iff_not] at this
      exact this.1
    exact ⟨Or.inr ⟨_, hFne, rfl⟩, (startsWithStr_iff _ _).mpr (List.prefix_append _ _)⟩

/-! Store-level lemmas. -/

theorem lookupFile_writeFile_self (fs : Fs) (p : Str) (c : List Nat) :
    lookupFile (writeFile fs p c).files p = some c := by
  show lookupFile ((p, c) :: fs.files.filter (fun e => decide (e.1 ≠ p))) p = some c
  unfold lookupFile
  simp

theorem writeFile_dirs (fs : Fs) (p : Str) (c : List Nat) :
    (writeFile fs p c).dirs = fs.dirs := rfl

theorem mkdirAll_files (fs : Fs) (p : Str) (fs1 : Fs) (h : mkdirAll fs p = some fs1) :
    fs1.files = fs.files := by
  unfold mkdirAll at h
  by_cases h1 : (pathAncestors p).any (fun q => (lookupFile fs.files q).isSome)
  · rw [if_pos h1] at h; cases h
  · rw [if_neg h1] at h
    cases h
    rfl

theorem processEntry_accepted (uploadDir : Str) (fs : Fs) (e : Entry) (fs2 : Fs) (rel : Str)
    (h : processEntry uploadDir fs e = (fs2, some rel)) :
    rel = cleanPath (effRelM e)
    ∧ startsWithStr rel (strOf "..") = false
    ∧ ∃ fs1, mkdirAll fs (dirName (join2 uploadDir rel)) = some fs1
        ∧ isDirFs fs1 (join2 uploadDir rel) = false
        ∧ fs2 = writeFile fs1 (join2 uploadDir rel) e.content := by
  have hq : (if e.pathField = [] then baseName e.filename else e.pathField) = effRelM e := rfl
  simp only [processEntry, hq] at h
  split at h
  · simp at h
  · rename_i hname
    split at h
    · simp at h
    · rename_i hpre
      split at h
      · simp at h
      · rename_i x fs1 hmk
        split at h
        · simp at h
        · rename_i hdir
          simp only [Prod.mk.injEq, Option.some.injEq] at h
          obtain ⟨hfs2, hrel⟩ := h
          subst hrel
          refine ⟨rfl, by simpa using hpre, fs1, hmk, by simpa using hdir, hfs2.symm⟩

/-- Claim C1 (amended): every client path whose cleaned (normalized) form still
contains a `..` segment is rejected by the upload/store sanitizer, and the
entry is skipped with the filesystem untouched. -/
theorem c1_clean_dd_rejected (uploadDir : Str) (fs : Fs) (e : Entry)
    (h : hasDotDotSeg (cleanPath (effRelM e)) = true) :
    processEntry uploadDir fs e = (fs, none) := by
  unfold processEntry
  by_cases h1 : baseName e.filename = [] ∨ baseName e.filename = strOf "."
      ∨ baseName e.filename = strOf ".."
  · rw [if_pos h1]
  · rw [if_neg h1]
    have hdd : strOf ".." ∈ splitOnSlash (cleanPath (effRelM e)) := by
      rcases List.any_eq_true.mp h with ⟨s, hs, hseq⟩
      exact (of_decide_eq_true hseq) ▸ hs
    have hpre : startsWithStr (cleanPath (effRelM e)) (strOf "..") = true :=
      dd_prefix_of_mem_clean _ hdd
    have hpre2 : startsWithStr
        (cleanPath (if e.pathField = [] then baseName e.filename else e.pathField))
        (strOf "..") = true := hpre
    simp [hpre2]

/-- Claim C1 witness: a concrete traversal path whose cleaned form keeps its
`..` segment is rejected and nothing is written. -/
theorem c1_witness :
    hasDotDotSeg (cleanPath (effRelM ⟨strOf "f.txt", strOf "../x", [42]⟩)) = true
    ∧ processEntry (join2 baseUploadDirS uuid0) emptyFs
        ⟨strOf "f.txt", strOf "../x", [42]⟩ = (emptyFs, none) :=
  ⟨by decide, c1_clean_dd_rejected (join2 baseUploadDirS uuid0) emptyFs
    ⟨strOf "f.txt", strOf "../x", [42]⟩ (by decide)⟩

/-- Claim C1 counterexample: a/../b contains a `..` segment before
normalization, yet the upload sanitizer accepts the entry and writes it
(under b), refuting the claim for paths with a `..` segment only before
normalization. -/
theorem c1_cex :
    hasDotDotSeg (strOf "a/../b") = true
    ∧ (processEntry (join2 baseUploadDirS uuid0) emptyFs
        ⟨strOf "f.txt", strOf "a/../b", [49]⟩).2 = some (strOf "b")
    ∧ lookupFile (processEntry (join2 baseUploadDirS uuid0) emptyFs
        ⟨strOf "f.txt", strOf "a/../b", [49]⟩).1.files
        (join2 (join2 baseUploadDirS uuid0) (strOf "b")) = some [49] := by
  decide

theorem sanitizeQueryPath_some (p cp : Str) (h : sanitizeQueryPath p = some cp) :
    p ≠ [] ∧ cp = cleanPath p
    ∧ startsWithStr cp (strOf "..") = false
    ∧ containsSub cp (strOf "..") = false := by
  simp only [sanitizeQueryPath] at h
  split at h
  · cases h
  · rename_i hp
    split at h
    · cases h
    · rename_i hchk
      simp only [Option.some.injEq] at h
      subst h
      simp only [Bool.or_eq_true, not_or, Bool.not_eq_true] at hchk
      exact ⟨hp, rfl, hchk.1, hchk.2⟩

/-- Claim C2 (amended): every path accepted by the retrieval sanitization
checks joins with the codebase root to a path that never escapes the root:
it is either a strict descendant of the root, or (exactly when the cleaned
path is degenerate, such as "." or "/") the root itself, the latter being
rejected afterwards by the directory check rather than the sanitizer.  Also
the string-prefix containment check always passes for sanitized paths. -/
theorem c2_join_contained (broot nm id p cp : Str)
    (hroot : broot = baseUploadDirS ∧ nm = strOf "uploads"
      ∨ broot = baseStorageDirS ∧ nm = strOf "storage")
    (hid : uuidValid id = true)
    (hs : sanitizeQueryPath p = some cp) :
    startsWithStr (join2 (join2 broot id) cp) (join2 broot id) = true
    ∧ (join2 (join2 broot id) cp = join2 broot id
       ∨ ∃ r, r ≠ [] ∧ join2 (join2 broot id) cp = (join2 broot id) ++ '/' :: r) := by
  obtain ⟨hp, hcp, hpre, hcontains⟩ := sanitizeQueryPath_some p cp hs
  have hdd : hasDotDotSeg cp = false := hasDotDotSeg_false_of_not_contains cp hcontains
  have hcpne : cp ≠ [] := hcp ▸ cleanPath_ne_nil p
  have hbd : join2 broot id = nm ++ '/' :: id := by
    rcases hroot with ⟨hb, hn⟩ | ⟨hb, hn⟩
    · rw [hb, hn]; exact baseDir_upload_eq id hid
    · rw [hb, hn]; exact baseDir_storage_eq id hid
  have hnm : goodSeg nm = true ∧ '/' ∉ nm := by
    rcases hroot with ⟨_, hn⟩ | ⟨_, hn⟩ <;> rw [hn] <;> exact ⟨by decide, by decide⟩
  rw [hbd]
  have := join2_baseDir_cases nm id cp hnm hid hdd hcpne
  exact ⟨this.2, this.1⟩

/-- Claim C2 witness: a concrete accepted path resolves to a strict
descendant of the root and passes the containment check. -/
theorem c2_witness :
    (uuidValid uuid0 = true ∧ sanitizeQueryPath (strOf "sub/x.txt") = some (strOf "sub/x.txt"))
    ∧ (startsWithStr (join2 (join2 baseUploadDirS uuid0) (strOf "sub/x.txt"))
        (join2 baseUploadDirS uuid0) = true
      ∧ (join2 (join2 baseUploadDirS uuid0) (strOf "sub/x.txt") = join2 baseUploadDirS uuid0
         ∨ ∃ r, r ≠ [] ∧ join2 (join2 baseUploadDirS uuid0) (strOf "sub/x.txt")
             = (join2 baseUploadDirS uuid0) ++ '/' :: r)) :=
  ⟨⟨by decide, by decide⟩,
    c2_join_contained baseUploadDirS (strOf "uploads") uuid0 (strOf "sub/x.txt")
      (strOf "sub/x.txt") (Or.inl ⟨rfl, rfl⟩) (by decide) (by decide)⟩

/-- Claim C2 counterexample: the path "." passes every retrieval
sanitization check (clean, the `..` checks, and the string-prefix
containment check), yet joining it with the root yields the root itself -
not a strict descendant - refuting the claim as stated. -/
theorem c2_cex :
    sanitizeQueryPath (strOf ".") = some (strOf ".")
    ∧ join2 (join2 baseUploadDirS uuid0) (strOf ".") = join2 baseUploadDirS uuid0
    ∧ startsWithStr (join2 (join2 baseUploadDirS uuid0) (strOf "."))
        (join2 baseUploadDirS uuid0) = true := by
  decide

/-- Claim C10 (confirmed): the upload sanitizer accepts and stores the file
name a..b.txt (its cleaned form does not begin with ".."), but both
retrieval handlers reject every cleaned path containing ".." as a substring
with a 400 "Invalid file path", so the stored file is not individually
retrievable; the rejection is proved for all such paths. -/
theorem c10_accept_store_reject :
    ((processEntry (join2 baseUploadDirS uuid0) emptyFs
        ⟨strOf "a..b.txt", [], [104]⟩).2 = some (strOf "a..b.txt")
      ∧ lookupFile (processEntry (join2 baseUploadDirS uuid0) emptyFs
          ⟨strOf "a..b.txt", [], [104]⟩).1.files
          (join2 (join2 baseUploadDirS uuid0) (strOf "a..b.txt")) = some [104]
      ∧ downloadFileM (processEntry (join2 baseUploadDirS uuid0) emptyFs
          ⟨strOf "a..b.txt", [], [104]⟩).1 uuid0 (strOf "a..b.txt")
          = FileResult.badRequest (strOf "Invalid file path")
      ∧ readFileContentM (processEntry (join2 baseUploadDirS uuid0) emptyFs
          ⟨strOf "a..b.txt", [], [104]⟩).1 uuid0 (strOf "a..b.txt")
          = ContentResult.badRequest (strOf "Invalid file path"))
    ∧ (∀ q, containsSub (cleanPath q) (strOf "..") = true → sanitizeQueryPath q = none) := by
  constructor
  · decide
  · intro q hq
    unfold sanitizeQueryPath
    by_cases hq0 : q = []
    · rw [if_pos hq0]
    · rw [if_neg hq0]
      have hor : (startsWithStr (cleanPath q) (strOf "..")
          || containsSub (cleanPath q) (strOf "..")) = true := by
        rw [hq, Bool.or_true]
      simp only [hor, if_true]

/-- Claim C10 witness: the universal rejection applied to a concrete path
whose cleaned form contains ".." inside a segment. -/
theorem c10_witness :
    containsSub (cleanPath (strOf "x/a..y")) (strOf "..") = true
    ∧ sanitizeQueryPath (strOf "x/a..y") = none :=
  ⟨by decide, c10_accept_store_reject.2 (strOf "x/a..y") (by decide)⟩

theorem baseName_ne_nil (p : Str) : baseName p ≠ [] := by
  simp only [baseName]
  split
  · decide
  · split
    · decide
    · assumption

theorem effRelM_ne_nil (e : Entry) : effRelM e ≠ [] := by
  unfold effRelM
  split
  · exact baseName_ne_nil e.filename
  · assumption

theorem downloadCore_ok (broot : Str) (fs : Fs) (id fp cp : Str) (c : List Nat)
    (hid : uuidValid id = true)
    (hfp : fp ≠ [])
    (hcp : cleanPath fp = cp)
    (hpre : startsWithStr cp (strOf "..") = false)
    (hcon : containsSub cp (strOf "..") = false)
    (hchk : startsWithStr (join2 (join2 broot id) cp) (join2 broot id) = true)
    (hdir : isDirFs fs (join2 (join2 broot id) cp) = false)
    (hlook : lookupFile fs.files (join2 (join2 broot id) cp) = some c) :
    downloadCore broot fs id fp = FileResult.ok (baseName cp) c.length c := by
  have hex : pathExistsFs fs (join2 (join2 broot id) cp) = true := by
    unfold pathExistsFs
    rw [hdir, hlook]
    rfl
  simp only [downloadCore]
  rw [hcp, if_neg (by simp [hid]), if_neg hfp, hpre, hcon, if_neg (by simp),
    if_neg (by simp [hchk]), if_neg (by simp [hex]), if_neg (by simp [hdir]), hlook]
  rfl

theorem contentCore_ok (broot : Str) (fs : Fs) (id fp cp : Str) (c : List Nat)
    (hid : uuidValid id = true)
    (hfp : fp ≠ [])
    (hcp : cleanPath fp = cp)
    (hpre : startsWithStr cp (strOf "..") = false)
    (hcon : containsSub cp (strOf "..") = false)
    (hchk : startsWithStr (join2 (join2 broot id) cp) (join2 broot id) = true)
    (hdir : isDirFs fs (join2 (join2 broot id) cp) = false)
    (hlook : lookupFile fs.files (join2 (join2 broot id) cp) = some c) :
    contentCore broot fs id fp
      = (if isTextFile c then ContentResult.okText cp c.length c
         else ContentResult.okBinary cp c.length) := by
  have hex : pathExistsFs fs (join2 (join2 broot id) cp) = true := by
    unfold pathExistsFs
    rw [hdir, hlook]
    rfl
  simp only [contentCore]
  rw [hcp, if_neg (by simp [hid]), if_neg hfp, hpre, hcon, if_neg (by simp),
    if_neg (by simp [hchk]), if_neg (by simp [hex]), if_neg (by simp [hdir]), hlook]
  rfl

/-- Claim C3 (amended): a file accepted and stored by the upload handler
whose stored relative path does not contain ".." as a substring is
retrievable under the same client-supplied relative path: the download
endpoint streams exactly the stored bytes with the originally written byte
count as its size, and the content endpoint reports that size, returning
the bytes inline exactly when the content classifies as text. -/
theorem c3_roundtrip (id : Str) (fs fs2 : Fs) (e : Entry) (rel : Str)
    (hid : uuidValid id = true)
    (hacc : processEntry (join2 baseUploadDirS id) fs e = (fs2, some rel))
    (hnodd : containsSub rel (strOf "..") = false) :
    downloadFileM fs2 id (effRelM e)
      = FileResult.ok (baseName rel) e.content.length e.content
    ∧ readFileContentM fs2 id (effRelM e)
      = (if isTextFile e.content
         then ContentResult.okText rel e.content.length e.content
         else ContentResult.okBinary rel e.content.length) := by
  obtain ⟨hrel, hpre, fs1, hmk, hdir1, hfs2⟩ :=
    processEntry_accepted (join2 baseUploadDirS id) fs e fs2 rel hacc
  have hdd : hasDotDotSeg rel = false := hasDotDotSeg_false_of_not_contains rel hnodd
  have hrelne : rel ≠ [] := hrel ▸ cleanPath_ne_nil (effRelM e)
  have hchk : startsWithStr (join2 (join2 baseUploadDirS id) rel)
      (join2 baseUploadDirS id) = true := by
    rw [baseDir_upload_eq id hid]
    exact (join2_baseDir_cases (strOf "uploads") id rel ⟨by decide, by decide⟩
      hid hdd hrelne).2
  have hlook : lookupFile fs2.files (join2 (join2 baseUploadDirS id) rel)
      = some e.content := by
    rw [hfs2]
    exact lookupFile_writeFile_self fs1 _ e.content
  have hdir2 : isDirFs fs2 (join2 (join2 baseUploadDirS id) rel) = false := by
    rw [hfs2]
    exact hdir1
  exact ⟨downloadCore_ok baseUploadDirS fs2 id (effRelM e) rel e.content hid
      (effRelM_ne_nil e) hrel.symm hpre hnodd hchk hdir2 hlook,
    contentCore_ok baseUploadDirS fs2 id (effRelM e) rel e.content hid
      (effRelM_ne_nil e) hrel.symm hpre hnodd hchk hdir2 hlook⟩

/-- Claim C3 witness: a stored file under sub/x.txt is downloaded back
byte-for-byte with its written size, and the content endpoint returns it
inline as text. -/
theorem c3_witness :
    (uuidValid uuid0 = true
      ∧ processEntry (join2 baseUploadDirS uuid0) emptyFs
          ⟨strOf "f.txt", strOf "sub/x.txt", [104, 105]⟩
        = ((processEntry (join2 baseUploadDirS uuid0) emptyFs
            ⟨strOf "f.txt", strOf "sub/x.txt", [104, 105]⟩).1, some (strOf "sub/x.txt"))
      ∧ containsSub (strOf "sub/x.txt") (strOf "..") = false)
    ∧ downloadFileM (processEntry (join2 baseUploadDirS uuid0) emptyFs
          ⟨strOf "f.txt", strOf "sub/x.txt", [104, 105]⟩).1 uuid0
        (effRelM ⟨strOf "f.txt", strOf "sub/x.txt", [104, 105]⟩)
      = FileResult.ok (baseName (strOf "sub/x.txt")) 2 [104, 105] :=
  ⟨⟨by decide, by decide, by decide⟩,
    (c3_roundtrip uuid0 emptyFs _ ⟨strOf "f.txt", strOf "sub/x.txt", [104, 105]⟩
      (strOf "sub/x.txt") (by decide) (by decide) (by decide)).1⟩

/-- Claim C3 counterexample: the upload handler accepts and stores
a..b.txt, but retrieving that same relative path is rejected with 400
"Invalid file path" by the download handler, refuting the unrestricted
round-trip claim. -/
theorem c3_cex :
    (processEntry (join2 baseUploadDirS uuid0) emptyFs
        ⟨strOf "a..b.txt", [], [7]⟩).2 = some (strOf "a..b.txt")
    ∧ lookupFile (processEntry (join2 baseUploadDirS uuid0) emptyFs
        ⟨strOf "a..b.txt", [], [7]⟩).1.files
        (join2 (join2 baseUploadDirS uuid0) (strOf "a..b.txt")) = some [7]
    ∧ downloadFileM (processEntry (join2 baseUploadDirS uuid0) emptyFs
        ⟨strOf "a..b.txt", [], [7]⟩).1 uuid0
        (effRelM ⟨strOf "a..b.txt", [], [7]⟩)
      = FileResult.badRequest (strOf "Invalid file path") := by
  decide

/-! Batch-level lemmas for the upload loop. -/

theorem processBatch_acc (u : Str) :
    ∀ (es : List Entry) (fs : Fs) (acc : List Str),
      es.foldl (fun st e =>
          let r := processEntry u st.1 e
          match r.2 with
          | some rel => (r.1, st.2 ++ [rel])
          | none => (r.1, st.2)) (fs, acc)
        = ((processBatch u fs es).1, acc ++ (processBatch u fs es).2) := by
  intro es
  induction es with
  | nil =>
    intro fs acc
    simp [processBatch]
  | cons e es ih =>
    intro fs acc
    simp only [processBatch, List.foldl_cons]
    cases hr : (processEntry u fs e).2 with
    | some rel =>
      simp only [hr]
      rw [ih ((processEntry u fs e).1) (acc ++ [rel]), ih ((processEntry u fs e).1) ([] ++ [rel])]
      simp
    | none =>
      simp only [hr]
      rw [ih ((processEntry u fs e).1) acc, ih ((processEntry u fs e).1) []]
      simp

theorem processBatch_cons (u : Str) (fs : Fs) (e : Entry) (es : List Entry) :
    processBatch u fs (e :: es)
      = ((processBatch u (processEntry u fs e).1 es).1,
         match (processEntry u fs e).2 with
         | some rel => rel :: (processBatch u (processEntry u fs e).1 es).2
         | none => (processBatch u (processEntry u fs e).1 es).2) := by
  simp only [processBatch, List.foldl_cons]
  cases hr : (processEntry u fs e).2 with
  | some rel =>
    simp only [hr]
    exact processBatch_acc u es ((processEntry u fs e).1) [rel]
  | none =>
    simp only [hr]

theorem processBatch_accepted_no_dd (u : Str) :
    ∀ (es : List Entry) (fs : Fs) (r : Str), r ∈ (processBatch u fs es).2 →
      startsWithStr r (strOf "..") = false := by
  intro es
  induction es with
  | nil =>
    intro fs r hm
    simp [processBatch] at hm
  | cons e es ih =>
    intro fs r hm
    rw [processBatch_cons] at hm
    cases hpe : processEntry u fs e with
    | mk fs2 o =>
      cases o with
      | some rel =>
        have hr2 : (processEntry u fs e).2 = some rel := by rw [hpe]
        simp only [hr2] at hm
        rcases List.mem_cons.mp hm with h1 | h1
        · subst h1
          exact (processEntry_accepted u fs e fs2 r (by rw [hpe])).2.1
        · exact ih _ r h1
      | none =>
        have hr2 : (processEntry u fs e).2 = none := by rw [hpe]
        simp only [hr2] at hm
        exact ih _ r hm

theorem existsUnderOrEq_removeAll (fs : Fs) (p : Str) :
    existsUnderOrEq (removeAll fs p) p = false := by
  unfold existsUnderOrEq removeAll
  simp only [Bool.or_eq_false_iff]
  constructor
  · rw [List.any_eq_false]
    intro d hd
    have h2 := List.of_mem_filter hd
    simp only [Bool.not_eq_true'] at h2
    simp [h2]
  · rw [List.any_eq_false]
    intro e he
    have h2 := List.of_mem_filter he
    simp only [Bool.not_eq_true'] at h2
    simp [h2]

theorem uploadCodebase_zero_accepted (fs0 : Fs) (id : Str) (entries : List Entry) (fs1 : Fs)
    (hne : entries ≠ [])
    (hmk : mkdirAll fs0 (join2 baseUploadDirS id) = some fs1)
    (hzero : (processBatch (join2 baseUploadDirS id) fs1 entries).2 = []) :
    uploadCodebase fs0 id entries
      = ⟨removeAll (processBatch (join2 baseUploadDirS id) fs1 entries).1
          (join2 baseUploadDirS id), 400, strOf "No valid files were uploaded", []⟩ := by
  simp only [uploadCodebase]
  rw [if_neg hne, hmk]
  simp [hzero]

theorem storeFiles_zero_accepted (fs0 : Fs) (id : Str) (entries : List Entry) (fs1 : Fs)
    (hid : uuidValid id = true)
    (hne : entries ≠ [])
    (hmk : mkdirAll fs0 (join2 baseStorageDirS id) = some fs1)
    (hzero : (processBatch (join2 baseStorageDirS id) fs1 entries).2 = []) :
    storeFiles fs0 id entries
      = ⟨removeAll (processBatch (join2 baseStorageDirS id) fs1 entries).1
          (join2 baseStorageDirS id), 400, strOf "No valid files were stored", []⟩ := by
  have hidne : id ≠ [] := (goodSeg_spec (uuid_goodSeg id hid).1).1
  simp only [storeFiles]
  rw [if_neg hidne, if_neg (by simp [hid]), if_neg hne, hmk]
  simp [hzero]

/-- Claim C4 (amended): a batch in which zero entries are accepted leaves no
codebase directory behind (the directory and everything under it are
removed), and the handler that ran the batch answers 400 with a
no-valid-files message; in the split deployment that storage-tier 400 is
surfaced by the API server to its client as a 500 storage failure with no
metadata written. -/
theorem c4_zero_accepted_cleanup :
    (∀ (fs0 : Fs) (id : Str) (entries : List Entry) (fs1 : Fs),
      entries ≠ [] →
      mkdirAll fs0 (join2 baseUploadDirS id) = some fs1 →
      (processBatch (join2 baseUploadDirS id) fs1 entries).2 = [] →
      (uploadCodebase fs0 id entries).status = 400
      ∧ (uploadCodebase fs0 id entries).errMsg = strOf "No valid files were uploaded"
      ∧ (uploadCodebase fs0 id entries).uploadedFiles = []
      ∧ existsUnderOrEq (uploadCodebase fs0 id entries).fs (join2 baseUploadDirS id) = false)
    ∧ (∀ (db0 : DbState) (fs0 : Fs) (id : Str) (entries : List Entry) (fs1 : Fs),
      uuidValid id = true →
      entries ≠ [] →
      mkdirAll fs0 (join2 baseStorageDirS id) = some fs1 →
      (processBatch (join2 baseStorageDirS id) fs1 (entries.map forwardEntry)).2 = [] →
      (storeFiles fs0 id (entries.map forwardEntry)).status = 400
      ∧ (storeFiles fs0 id (entries.map forwardEntry)).errMsg = strOf "No valid files were stored"
      ∧ existsUnderOrEq (storeFiles fs0 id (entries.map forwardEntry)).fs
          (join2 baseStorageDirS id) = false
      ∧ (serverAUpload db0 fs0 id entries).status = 500
      ∧ (serverAUpload db0 fs0 id entries).db = db0) := by
  constructor
  · intro fs0 id entries fs1 hne hmk hzero
    rw [uploadCodebase_zero_accepted fs0 id entries fs1 hne hmk hzero]
    exact ⟨rfl, rfl, rfl, existsUnderOrEq_removeAll _ _⟩
  · intro db0 fs0 id entries fs1 hid hne hmk hzero
    have hmapne : entries.map forwardEntry ≠ [] := by simpa using hne
    have hst := storeFiles_zero_accepted fs0 id (entries.map forwardEntry) fs1 hid hmapne hmk hzero
    refine ⟨by rw [hst], by rw [hst], by rw [hst]; exact existsUnderOrEq_removeAll _ _, ?_, ?_⟩
    · simp only [serverAUpload]
      rw [if_neg hne, hst]
      rfl
    · simp only [serverAUpload]
      rw [if_neg hne, hst]
      rfl

/-- Claim C4 witness: a one-entry batch whose only file name is ".." is
fully rejected; the storage tier removes the directory and answers 400, and
the API tier reports 500 with the ledger untouched. -/
theorem c4_witness :
    ([(⟨strOf "..", [], [49]⟩ : Entry)] ≠ []
      ∧ mkdirAll emptyFs (join2 baseStorageDirS uuid0)
        = some ((mkdirAll emptyFs (join2 baseStorageDirS uuid0)).getD emptyFs)
      ∧ (processBatch (join2 baseStorageDirS uuid0)
          ((mkdirAll emptyFs (join2 baseStorageDirS uuid0)).getD emptyFs)
          ([(⟨strOf "..", [], [49]⟩ : Entry)].map forwardEntry)).2 = [])
    ∧ ((storeFiles emptyFs uuid0 ([(⟨strOf "..", [], [49]⟩ : Entry)].map forwardEntry)).status = 400
      ∧ existsUnderOrEq (storeFiles emptyFs uuid0
          ([(⟨strOf "..", [], [49]⟩ : Entry)].map forwardEntry)).fs
          (join2 baseStorageDirS uuid0) = false
      ∧ (serverAUpload emptyDb emptyFs uuid0 [(⟨strOf "..", [], [49]⟩ : Entry)]).status = 500) := by
  have h := c4_zero_accepted_cleanup.2 emptyDb emptyFs uuid0
    [(⟨strOf "..", [], [49]⟩ : Entry)]
    ((mkdirAll emptyFs (join2 baseStorageDirS uuid0)).getD emptyFs)
    (by decide) (by decide) (by decide) (by decide)
  exact ⟨⟨by decide, by decide, by decide⟩, h.1, h.2.2.1, h.2.2.2.1⟩

/-- Claim C4 counterexample: through the split deployment's public upload
endpoint, an all-rejected batch is answered with 500 (storage failure), not
with the claimed 400, even though the codebase directory is removed. -/
theorem c4_cex :
    (processBatch (join2 baseStorageDirS uuid0)
        ((mkdirAll emptyFs (join2 baseStorageDirS uuid0)).getD emptyFs)
        ([(⟨strOf "..", [], [50]⟩ : Entry)].map forwardEntry)).2 = []
    ∧ (serverAUpload emptyDb emptyFs uuid0 [(⟨strOf "..", [], [50]⟩ : Entry)]).status = 500
    ∧ existsUnderOrEq (serverAUpload emptyDb emptyFs uuid0
        [(⟨strOf "..", [], [50]⟩ : Entry)]).storageFs (join2 baseStorageDirS uuid0) = false := by
  decide

theorem downloadCore_reject_dd (broot : Str) (fs : Fs) (id fp : Str)
    (hid : uuidValid id = true) (hfp : fp ≠ [])
    (hpre : startsWithStr (cleanPath fp) (strOf "..") = true) :
    downloadCore broot fs id fp = FileResult.badRequest (strOf "Invalid file path") := by
  simp only [downloadCore]
  rw [if_neg (by simp [hid]), if_neg hfp, hpre]
  simp

theorem uploadCodebase_success (fs0 : Fs) (id : Str) (entries : List Entry) (fs1 : Fs)
    (hne : entries ≠ [])
    (hmk : mkdirAll fs0 (join2 baseUploadDirS id) = some fs1)
    (hnz : (processBatch (join2 baseUploadDirS id) fs1 entries).2 ≠ []) :
    uploadCodebase fs0 id entries
      = ⟨(processBatch (join2 baseUploadDirS id) fs1 entries).1, 200, [],
         (processBatch (join2 baseUploadDirS id) fs1 entries).2⟩ := by
  simp only [uploadCodebase]
  rw [if_neg hne, hmk]
  simp only [if_neg hnz]

/-- Claim C5 (amended): a batch with at least one accepted entry succeeds.
The single-process upload handler reports exactly the relative paths the
loop accepted; an entry rejected as a traversal attempt never appears in
that list and its path is not retrievable (the retrieval sanitizer rejects
it with 400).  The split API server, however, reports every forwarded path
- including rejected ones - in its response and persists them all into the
metadata ledger. -/
theorem c5_partial_batch :
    (∀ (fs0 : Fs) (id : Str) (entries : List Entry) (fs1 : Fs),
      uuidValid id = true →
      entries ≠ [] →
      mkdirAll fs0 (join2 baseUploadDirS id) = some fs1 →
      (processBatch (join2 baseUploadDirS id) fs1 entries).2 ≠ [] →
      (uploadCodebase fs0 id entries).status = 200
      ∧ (uploadCodebase fs0 id entries).uploadedFiles
          = (processBatch (join2 baseUploadDirS id) fs1 entries).2
      ∧ (∀ e ∈ entries, startsWithStr (cleanPath (effRelM e)) (strOf "..") = true →
          cleanPath (effRelM e) ∉ (uploadCodebase fs0 id entries).uploadedFiles
          ∧ downloadFileM (uploadCodebase fs0 id entries).fs id (effRelM e)
            = FileResult.badRequest (strOf "Invalid file path")))
    ∧ (∀ (db0 : DbState) (fs0 : Fs) (id : Str) (entries : List Entry),
      (serverAUpload db0 fs0 id entries).status = 200 →
      (serverAUpload db0 fs0 id entries).uploadedFiles = entries.map effRelA
      ∧ (serverAUpload db0 fs0 id entries).db.fileRows.map (fun row => row.path)
          = entries.map effRelA ++ db0.fileRows.map (fun row => row.path)) := by
  constructor
  · intro fs0 id entries fs1 hid hne hmk hnz
    rw [uploadCodebase_success fs0 id entries fs1 hne hmk hnz]
    refine ⟨rfl, rfl, ?_⟩
    intro e _ hdd
    constructor
    · intro hmem
      have := processBatch_accepted_no_dd (join2 baseUploadDirS id) entries fs1
        (cleanPath (effRelM e)) hmem
      rw [hdd] at this
      cases this
    · exact downloadCore_reject_dd baseUploadDirS _ id (effRelM e) hid (effRelM_ne_nil e) hdd
  · intro db0 fs0 id entries h
    by_cases hne : entries = []
    · rw [hne] at h
      simp [serverAUpload] at h
    · simp only [serverAUpload, if_neg hne] at h ⊢
      by_cases hst : (storeFiles fs0 id (entries.map forwardEntry)).status = 200
      · rw [if_pos hst] at h ⊢
        constructor
        · show (forwardInfos entries).map (fun i => i.path) = entries.map effRelA
          simp [forwardInfos]
        · show ((forwardInfos entries).map
              (fun i => (⟨id, i.path, i.name, i.size⟩ : FileRow))
              ++ db0.fileRows).map (fun row => row.path)
            = entries.map effRelA ++ db0.fileRows.map (fun row => row.path)
          simp [forwardInfos]
      · rw [if_neg hst] at h
        simp at h

/-- Claim C5 witness: a two-entry batch where the second entry is a
traversal attempt succeeds with only the first path reported, and the
rejected path is neither listed nor retrievable. -/
theorem c5_witness :
    (uuidValid uuid0 = true
      ∧ ([⟨strOf "a.txt", [], [49]⟩, ⟨strOf "b.txt", strOf "../evil", [50]⟩] : List Entry) ≠ []
      ∧ startsWithStr (cleanPath (effRelM ⟨strOf "b.txt", strOf "../evil", [50]⟩))
          (strOf "..") = true)
    ∧ ((uploadCodebase emptyFs uuid0
          [⟨strOf "a.txt", [], [49]⟩, ⟨strOf "b.txt", strOf "../evil", [50]⟩]).status = 200
      ∧ cleanPath (effRelM ⟨strOf "b.txt", strOf "../evil", [50]⟩)
          ∉ (uploadCodebase emptyFs uuid0
              [⟨strOf "a.txt", [], [49]⟩, ⟨strOf "b.txt", strOf "../evil", [50]⟩]).uploadedFiles
      ∧ downloadFileM (uploadCodebase emptyFs uuid0
            [⟨strOf "a.txt", [], [49]⟩, ⟨strOf "b.txt", strOf "../evil", [50]⟩]).fs uuid0
          (effRelM ⟨strOf "b.txt", strOf "../evil", [50]⟩)
        = FileResult.badRequest (strOf "Invalid file path")) := by
  have h := c5_partial_batch.1 emptyFs uuid0
    [⟨strOf "a.txt", [], [49]⟩, ⟨strOf "b.txt", strOf "../evil", [50]⟩]
    ((mkdirAll emptyFs (join2 baseUploadDirS uuid0)).getD emptyFs)
    (by decide) (by decide) (by decide) (by decide)
  have h2 := h.2.2 ⟨strOf "b.txt", strOf "../evil", [50]⟩ (by decide) (by decide)
  exact ⟨⟨by decide, by decide, by decide⟩, h.1, h2.1, h2.2⟩

/-- Claim C5 counterexample: a three-entry batch with one traversal attempt
succeeds, but the split API server reports all three forwarded paths -
including the rejected ../evil - in its response and metadata, while the
storage tier accepted only two, refuting "the success response lists
exactly the accepted files". -/
theorem c5_cex :
    (serverAUpload emptyDb emptyFs uuid0
        [⟨strOf "a.txt", [], [49]⟩, ⟨strOf "b.txt", strOf "../evil", [50]⟩,
         ⟨strOf "c.txt", [], [51]⟩]).status = 200
    ∧ (serverAUpload emptyDb emptyFs uuid0
        [⟨strOf "a.txt", [], [49]⟩, ⟨strOf "b.txt", strOf "../evil", [50]⟩,
         ⟨strOf "c.txt", [], [51]⟩]).uploadedFiles
      = [strOf "a.txt", strOf "../evil", strOf "c.txt"]
    ∧ (storeFiles emptyFs uuid0
        ([⟨strOf "a.txt", [], [49]⟩, ⟨strOf "b.txt", strOf "../evil", [50]⟩,
          ⟨strOf "c.txt", [], [51]⟩].map forwardEntry)).uploadedFiles
      = [strOf "a.txt", strOf "c.txt"]
    ∧ (serverAUpload emptyDb emptyFs uuid0
        [⟨strOf "a.txt", [], [49]⟩, ⟨strOf "b.txt", strOf "../evil", [50]⟩,
         ⟨strOf "c.txt", [], [51]⟩]).db.fileRows.map (fun row => row.path)
      = [strOf "a.txt", strOf "../evil", strOf "c.txt"] := by
  decide

/-- Claim C6 (amended): on the storage-backed single-process server a
syntactically valid UUID whose codebase directory does not exist yields 404
from GET /codebases/id - directory existence is the test.  On the split API
server the same endpoint consults only the metadata ledger: no row yields
404 and a row yields 200 regardless of the filesystem, so there the ledger,
not the directory, is authoritative. -/
theorem c6_codebase_existence :
    (∀ (fs : Fs) (id : Str), uuidValid id = true →
      pathExistsFs fs (join2 baseUploadDirS id) = false →
      getCodebaseFilesMono fs id = 404)
    ∧ (∀ (db : DbState) (id : Str), uuidValid id = true →
      dbHasCodebase db id = false → getCodebaseFilesA db id = 404)
    ∧ (∀ (db : DbState) (id : Str), uuidValid id = true →
      dbHasCodebase db id = true → getCodebaseFilesA db id = 200) := by
  refine ⟨?_, ?_, ?_⟩
  · intro fs id hid hex
    unfold getCodebaseFilesMono
    rw [if_neg (by simp [hid]), if_pos hex]
  · intro db id hid hdb
    unfold getCodebaseFilesA
    rw [if_neg (by simp [hid]), if_pos hdb]
  · intro db id hid hdb
    unfold getCodebaseFilesA
    rw [if_neg (by simp [hid]), if_neg (by simp [hdb])]

/-- Claim C6 witness: a valid UUID with no directory on disk yields 404 on
the storage-backed endpoint. -/
theorem c6_witness :
    (uuidValid uuid0 = true ∧ pathExistsFs emptyFs (join2 baseUploadDirS uuid0) = false)
    ∧ getCodebaseFilesMono emptyFs uuid0 = 404 :=
  ⟨⟨by decide, by decide⟩, c6_codebase_existence.1 emptyFs uuid0 (by decide) (by decide)⟩

/-- Claim C6 counterexample: the split API server returns 200 for a valid
UUID that has a ledger row but no codebase directory on any filesystem,
refuting both the 404 claim and the claim that directory existence (not the
ledger) is the authoritative existence test. -/
theorem c6_cex :
    uuidValid uuid0 = true
    ∧ pathExistsFs emptyFs (join2 baseUploadDirS uuid0) = false
    ∧ pathExistsFs emptyFs (join2 baseStorageDirS uuid0) = false
    ∧ getCodebaseFilesA ⟨[(uuid0, 2)], []⟩ uuid0 = 200 := by
  decide

theorem countP_replicate (p : Nat → Bool) (n a : Nat) :
    (List.replicate n a).countP p = if p a then n else 0 := by
  induction n with
  | zero => simp
  | succ n ih =>
    rw [List.replicate_succ, List.countP_cons, ih]
    by_cases h : p a <;> simp [h]

theorem utf8Valid_cons_ascii (b : Nat) (rest : List Nat) (hb : b < 128) :
    utf8Valid (b :: rest) = utf8Valid rest := by
  unfold utf8Valid
  rw [utf8Scan, if_pos hb]

theorem utf8Valid_of_ascii : ∀ (l : List Nat), (∀ b ∈ l, b < 128) → utf8Valid l = true := by
  intro l
  induction l with
  | nil => intro; rfl
  | cons b rest ih =>
    intro h
    rw [utf8Valid_cons_ascii b rest (h b (List.mem_cons_self b rest))]
    exact ih (fun x hx => h x (List.mem_cons_of_mem b hx))

theorem isTextFile_long_iff (c : List Nat) (hv : utf8Valid c = true) (hlen : 100 < c.length) :
    isTextFile c = false
      ↔ (100 * nullCount c > c.length ∨ 20 * controlCount c > c.length) := by
  unfold isTextFile
  rw [if_neg (by omega), if_neg (by simp [hv]), if_pos hlen]
  by_cases h1 : 100 * nullCount c > c.length
  · simp [h1]
  · by_cases h2 : 20 * controlCount c > c.length
    · simp [h1, h2]
    · simp [h1, h2]

/-- Claim C7 (confirmed): the content classifier calls empty content text;
non-UTF-8 content binary; valid UTF-8 content of at most 100 bytes text; and
valid UTF-8 content longer than 100 bytes binary exactly when the null-byte
count exceeds 1% of the total length or the control-character count exceeds
5% of it (counts taken over the inspected prefix, per the classifier
contract; ratios against the total content length). -/
theorem c7_classifier :
    isTextFile ([] : List Nat) = true
    ∧ (∀ c : List Nat, utf8Valid c = false → isTextFile c = false)
    ∧ (∀ c : List Nat, utf8Valid c = true → c.length ≤ 100 → isTextFile c = true)
    ∧ (∀ c : List Nat, utf8Valid c = true → 100 < c.length →
        (isTextFile c = false
          ↔ (100 * nullCount c > c.length ∨ 20 * controlCount c > c.length))) := by
  refine ⟨by decide, ?_, ?_, ?_⟩
  · intro c h
    unfold isTextFile
    by_cases hlen : c.length = 0
    · rw [List.length_eq_zero] at hlen
      subst hlen
      exact absurd h (by decide)
    · rw [if_neg hlen, if_pos h]
  · intro c hv hlen
    unfold isTextFile
    by_cases hlen0 : c.length = 0
    · rw [if_pos hlen0]
    · rw [if_neg hlen0, if_neg (by simp [hv]), if_neg (by omega)]
  · exact isTextFile_long_iff

set_option maxRecDepth 40000 in
/-- Claim C7 witness: the spec's vectors: 1 null byte among 1000 is text
(0.1% below 1%), 20 null bytes among 1000 is binary (2% above 1%). -/
theorem c7_witness :
    ((utf8Valid (List.replicate 999 97 ++ [0] : List Nat) = true
        ∧ 100 < (List.replicate 999 97 ++ [0] : List Nat).length)
      ∧ (isTextFile (List.replicate 999 97 ++ [0] : List Nat) = false
          ↔ (100 * nullCount (List.replicate 999 97 ++ [0] : List Nat)
                > (List.replicate 999 97 ++ [0] : List Nat).length
             ∨ 20 * controlCount (List.replicate 999 97 ++ [0] : List Nat)
                > (List.replicate 999 97 ++ [0] : List Nat).length)))
    ∧ isTextFile (List.replicate 999 97 ++ [0] : List Nat) = true
    ∧ isTextFile (List.replicate 980 97 ++ List.replicate 20 0 : List Nat) = false :=
  ⟨⟨⟨by decide, by decide⟩,
      c7_classifier.2.2.2 (List.replicate 999 97 ++ [0]) (by decide) (by decide)⟩,
    by decide, by decide⟩

/-- Claim C8 (amended): the classifier's counting loop breaks only once the
byte index exceeds 8192, so it inspects the first 8193 bytes: two valid
UTF-8 inputs of equal total length agreeing on their first 8193 bytes
receive the same classification. -/
theorem c8_prefix_determines (a b : List Nat)
    (hva : utf8Valid a = true) (hvb : utf8Valid b = true)
    (hlen : a.length = b.length)
    (htake : a.take 8193 = b.take 8193) :
    isTextFile a = isTextFile b := by
  unfold isTextFile nullCount controlCount
  rw [hva, hvb, hlen, htake]

/-- Claim C8 witness: the amended prefix-determinism applied at a concrete
valid input. -/
theorem c8_witness :
    (utf8Valid ([104, 105] : List Nat) = true
      ∧ ([104, 105] : List Nat).take 8193 = ([104, 105] : List Nat).take 8193)
    ∧ isTextFile [104, 105] = isTextFile [104, 105] :=
  ⟨⟨by decide, rfl⟩, c8_prefix_determines [104, 105] [104, 105] (by decide) (by decide) rfl rfl⟩

/-- Claim C8 counterexample: two valid 8193-byte inputs agreeing on their
first 8192 bytes but differing at index 8192 (the 8193rd byte, which the
loop still inspects) classify differently: with 81 null bytes among the
first 8192, the final byte decides whether the null count (82 vs 81)
crosses the 1% threshold. -/
theorem c8_cex :
    ((List.replicate 81 (0 : Nat) ++ List.replicate 8111 97) ++ [0]).take 8192
      = ((List.replicate 81 (0 : Nat) ++ List.replicate 8111 97) ++ [97]).take 8192
    ∧ ((List.replicate 81 (0 : Nat) ++ List.replicate 8111 97) ++ [0]).length
      = ((List.replicate 81 (0 : Nat) ++ List.replicate 8111 97) ++ [97]).length
    ∧ utf8Valid ((List.replicate 81 (0 : Nat) ++ List.replicate 8111 97) ++ [0]) = true
    ∧ utf8Valid ((List.replicate 81 (0 : Nat) ++ List.replicate 8111 97) ++ [97]) = true
    ∧ isTextFile ((List.replicate 81 (0 : Nat) ++ List.replicate 8111 97) ++ [0]) = false
    ∧ isTextFile ((List.replicate 81 (0 : Nat) ++ List.replicate 8111 97) ++ [97]) = true := by
  have hL : (List.replicate 81 (0 : Nat) ++ List.replicate 8111 97).length = 8192 := by
    simp only [List.length_append, List.length_replicate]
  have hlen : ∀ (x : Nat),
      ((List.replicate 81 (0 : Nat) ++ List.replicate 8111 97) ++ [x]).length = 8193 := by
    intro x
    simp only [List.length_append, List.length_replicate, List.length_singleton]
  have htakeall : ∀ (x : Nat),
      ((List.replicate 81 (0 : Nat) ++ List.replicate 8111 97) ++ [x]).take 8193
        = (List.replicate 81 (0 : Nat) ++ List.replicate 8111 97) ++ [x] := by
    intro x
    apply List.take_of_length_le
    rw [hlen x]
  have hasc : ∀ (x : Nat), x < 128 →
      ∀ b ∈ (List.replicate 81 (0 : Nat) ++ List.replicate 8111 97) ++ [x], b < 128 := by
    intro x hx b hb
    simp only [List.mem_append, List.mem_replicate, List.mem_singleton] at hb
    rcases hb with (⟨_, hb⟩ | ⟨_, hb⟩) | hb <;> subst hb <;> omega
  have hv0 := utf8Valid_of_ascii _ (hasc 0 (by omega))
  have hv97 := utf8Valid_of_ascii _ (hasc 97 (by omega))
  have hnull0 : nullCount ((List.replicate 81 (0 : Nat) ++ List.replicate 8111 97) ++ [0])
      = 82 := by
    unfold nullCount
    rw [htakeall 0, List.countP_append, List.countP_append,
      countP_replicate, countP_replicate]
    decide
  have hnull97 : nullCount ((List.replicate 81 (0 : Nat) ++ List.replicate 8111 97) ++ [97])
      = 81 := by
    unfold nullCount
    rw [htakeall 97, List.countP_append, List.countP_append,
      countP_replicate, countP_replicate]
    decide
  have hctrl97 : controlCount ((List.replicate 81 (0 : Nat) ++ List.replicate 8111 97) ++ [97])
      = 81 := by
    unfold controlCount
    rw [htakeall 97, List.countP_append, List.countP_append,
      countP_replicate, countP_replicate]
    decide
  refine ⟨?_, ?_, hv0, hv97, ?_, ?_⟩
  · rw [← hL, List.take_left, List.take_left]
  · rw [hlen 0, hlen 97]
  · exact (isTextFile_long_iff _ hv0 (by rw [hlen 0]; omega)).mpr
      (Or.inl (by rw [hnull0, hlen 0]; omega))
  · cases hb : isTextFile ((List.replicate 81 (0 : Nat) ++ List.replicate 8111 97) ++ [97]) with
    | true => rfl
    | false =>
      exfalso
      rcases (isTextFile_long_iff _ hv97 (by rw [hlen 97]; omega)).mp hb with h1 | h1
      · rw [hnull97, hlen 97] at h1
        omega
      · rw [hctrl97, hlen 97] at h1
        omega

/-! Lemmas for the archive walk. -/

theorem insertSorted_perm (x : Str) :
    ∀ (l : List Str), List.Perm (insertSorted x l) (x :: l) := by
  intro l
  induction l with
  | nil => exact List.Perm.refl _
  | cons y ys ih =>
    unfold insertSorted
    by_cases h : pathLe x y = true
    · rw [if_pos h]
    · rw [if_neg h]
      exact (ih.cons y).trans (List.Perm.swap x y ys)

theorem sortPaths_perm : ∀ (l : List Str), List.Perm (sortPaths l) l := by
  intro l
  induction l with
  | nil => exact List.Perm.refl _
  | cons x xs ih =>
    unfold sortPaths
    exact (insertSorted_perm x (sortPaths xs)).trans (ih.cons x)

theorem countP_filterMap {α β : Type} (f : α → Option β) (p : β → Bool) :
    ∀ (l : List α),
      (l.filterMap f).countP p
        = l.countP (fun a => match f a with | some b => p b | none => false) := by
  intro l
  induction l with
  | nil => rfl
  | cons a l ih =>
    rw [List.filterMap_cons, List.countP_cons]
    cases hf : f a with
    | none => simpa using ih
    | some b =>
      rw [List.countP_cons, ih]

theorem length_filterMap_all_some {α β : Type} (f : α → Option β) :
    ∀ (l : List α), (∀ a ∈ l, (f a).isSome) → (l.filterMap f).length = l.length := by
  intro l
  induction l with
  | nil => intro; rfl
  | cons a l ih =>
    intro h
    rw [List.filterMap_cons]
    cases hf : f a with
    | none =>
      have := h a (List.mem_cons_self a l)
      rw [hf] at this
      cases this
    | some b =>
      simp only [List.length_cons]
      rw [ih (fun x hx => h x (List.mem_cons_of_mem a hx))]

theorem countP_eq_one_of_nodup {α : Type} [DecidableEq α] :
    ∀ (l : List α) (a : α), l.Nodup → a ∈ l →
      l.countP (fun x => decide (x = a)) = 1 := by
  intro l
  induction l with
  | nil => intro a _ ha; cases ha
  | cons b l ih =>
    intro a hnd ha
    rw [List.countP_cons]
    rcases List.mem_cons.mp ha with h1 | h1
    · subst h1
      have hnotin : a ∉ l := (List.nodup_cons.mp hnd).1
      rw [List.countP_eq_zero.mpr (fun x hx => by
        simp only [decide_eq_true_eq]
        intro heq
        exact hnotin (heq ▸ hx))]
      simp
    · have hne : b ≠ a := by
        intro heq
        exact (List.nodup_cons.mp hnd).1 (heq ▸ h1)
      rw [ih a (List.nodup_cons.mp hnd).2 h1]
      simp [hne]

theorem lookupFile_of_mem_nodup :
    ∀ (l : List (Str × List Nat)) (q : Str) (cq : List Nat),
      (l.map (fun e => e.1)).Nodup → (q, cq) ∈ l → lookupFile l q = some cq := by
  intro l
  induction l with
  | nil => intro q cq _ hm; cases hm
  | cons e l ih =>
    intro q cq hnd hm
    rw [List.map_cons, List.nodup_cons] at hnd
    rcases List.mem_cons.mp hm with h1 | h1
    · rw [← h1]
      unfold lookupFile
      rw [if_pos rfl]
    · have hne : e.1 ≠ q := by
        intro heq
        exact hnd.1 (heq ▸ List.mem_map.mpr ⟨(q, cq), h1, rfl⟩)
      unfold lookupFile
      rw [if_neg hne]
      exact ih q cq hnd.2 h1

theorem strictUnder_decomp (root p : Str) (h : strictUnder root p = true) :
    p = root ++ '/' :: relTo root p ∧ p ≠ root := by
  have hpre : (root ++ ['/']) <+: p := List.isPrefixOf_iff_prefix.mp h
  rcases hpre with ⟨r, hr⟩
  have hne : p ≠ root := by
    intro heq
    have := congrArg List.length hr
    simp only [List.length_append, List.length_singleton, heq, List.length_append] at this
    omega
  have hrel : relTo root p = r := by
    unfold relTo
    rw [if_neg hne, ← hr]
    have hlen : root.length + 1 = (root ++ ['/']).length := by
      simp
    rw [hlen, List.drop_left]
  constructor
  · rw [hrel, ← hr]
    simp
  · exact hne

theorem relTo_inj (root p q : Str) (hp : strictUnder root p = true)
    (hq : strictUnder root q = true) (h : relTo root p = relTo root q) : p = q := by
  rw [(strictUnder_decomp root p hp).1, (strictUnder_decomp root q hq).1, h]

theorem relTo_segs_good (root p : Str) (h : strictUnder root p = true)
    (hg : goodPathB p = true) : (splitOnSlash (relTo root p)).all goodSeg = true := by
  have hdec := (strictUnder_decomp root p h).1
  unfold goodPathB at hg
  rw [hdec, splitOnSlash_append, List.all_append] at hg
  have hg2 : (splitOnSlash root).all goodSeg = true
      ∧ (splitOnSlash (relTo root p)).all goodSeg = true := by simpa using hg
  exact hg2.2

theorem relTo_ne_dot (root p : Str) (h : strictUnder root p = true)
    (hg : goodPathB p = true) : relTo root p ≠ strOf "." := by
  intro heq
  have := relTo_segs_good root p h hg
  rw [heq] at this
  exact absurd this (by decide)

theorem append_singleton_inj (a b : Str) (c : Char) (h : a ++ [c] = b ++ [c]) : a = b := by
  have h2 := congrArg List.reverse h
  simp only [List.reverse_append, List.reverse_singleton, List.singleton_append,
    List.cons.injEq] at h2
  have h3 := congrArg List.reverse h2.2
  simpa using h3

theorem append_slash_ne_dot (r : Str) : r ++ ['/'] ≠ strOf "." := by
  intro h
  have h2 := congrArg List.getLast? h
  rw [List.getLast?_concat] at h2
  exact absurd h2 (by decide)

theorem countP_congr_eq {α : Type} (p q : α → Bool) :
    ∀ (l : List α), (∀ x ∈ l, p x = q x) → l.countP p = l.countP q := by
  intro l
  induction l with
  | nil => intro; rfl
  | cons a l ih =>
    intro h
    rw [List.countP_cons, List.countP_cons, h a (List.mem_cons_self a l),
      ih (fun x hx => h x (List.mem_cons_of_mem a hx))]

theorem nat_sum_eq_one (x y : Nat) (hx : x = 0) (hy : y = 1) : x + y = 1 := by
  omega

/-- Claim C9 (confirmed): for a well-formed codebase tree, the ZIP archive
built by walking the root contains exactly one entry per regular file below
the root - named by its root-relative path and carrying exactly the file's
bytes - and exactly one content-free entry per directory below the root,
named with a trailing separator; the root itself contributes no entry, and
the total entry count equals the number of objects below the root, so
nothing else appears. -/
theorem c9_zip_archive (fs : Fs) (root : Str) (hwf : fsWfB fs root = true) :
    (zipEntries fs root).length
        = ((objectPaths fs).filter (fun p => strictUnder root p)).length
    ∧ (∀ p c, (p, c) ∈ fs.files → strictUnder root p = true →
        (zipEntries fs root).countP
          (fun en => decide (en = ⟨relTo root p, some c⟩)) = 1)
    ∧ (∀ d, d ∈ fs.dirs → strictUnder root d = true →
        (zipEntries fs root).countP
          (fun en => decide (en = ⟨relTo root d ++ ['/'], none⟩)) = 1)
    ∧ (∀ en ∈ zipEntries fs root,
        en.entryName ≠ strOf "." ∧ en.entryName ≠ strOf "./") := by
  simp only [fsWfB, Bool.and_eq_true] at hwf
  obtain ⟨⟨⟨⟨hnd, hgood⟩, hgroot⟩, hrootdir⟩, hpar⟩ := hwf
  have hnodup : (objectPaths fs).Nodup := of_decide_eq_true hnd
  have hgoodall : ∀ p ∈ objectPaths fs, goodPathB p = true := by
    intro p hp
    exact List.all_eq_true.mp hgood p hp
  have hndparts := List.nodup_append.mp (by
    have h0 : objectPaths fs = fs.dirs ++ fs.files.map (fun e => e.1) := rfl
    rw [← h0]
    exact hnodup)
  have hkeysnodup : (fs.files.map (fun e => e.1)).Nodup := hndparts.2.1
  have hdisj : ∀ q, q ∈ fs.files.map (fun e => e.1) → q ∉ fs.dirs := by
    intro q hq hqd
    exact hndparts.2.2 hqd hq
  have hrootrel : relTo root root = strOf "." := by
    unfold relTo
    rw [if_pos rfl]
  have hzip : zipEntries fs root
      = (sortPaths ((objectPaths fs).filter (fun p => strictUnder root p))).filterMap
          (fun p =>
            if relTo root p = strOf "." then none
            else if isDirFs fs p then some ⟨relTo root p ++ ['/'], none⟩
            else some ⟨relTo root p, some ((lookupFile fs.files p).getD [])⟩) := by
    simp [zipEntries, walkOrder, hrootrel]
  have hmemobj_dir : ∀ d ∈ fs.dirs, d ∈ objectPaths fs := by
    intro d hd
    exact List.mem_append.mpr (Or.inl hd)
  have hmemobj_file : ∀ q ∈ fs.files.map (fun e => e.1), q ∈ objectPaths fs := by
    intro q hq
    exact List.mem_append.mpr (Or.inr hq)
  have hisdir_file : ∀ q ∈ fs.files.map (fun e => e.1), isDirFs fs q = false := by
    intro q hq
    rw [isDirFs, List.any_eq_false]
    intro d hd
    simp only [decide_eq_true_eq]
    intro heq
    exact hdisj q hq (heq ▸ hd)
  have hisdir_dir : ∀ d ∈ fs.dirs, isDirFs fs d = true := by
    intro d hd
    rw [isDirFs, List.any_eq_true]
    exact ⟨d, hd, by simp⟩
  have hobjsplit : objectPaths fs = fs.dirs ++ fs.files.map (fun e => e.1) := rfl
  refine ⟨?_, ?_, ?_, ?_⟩
  · rw [hzip, length_filterMap_all_some, ((sortPaths_perm _).length_eq)]
    intro q hq
    have hq2 := (sortPaths_perm _).mem_iff.mp hq
    have hobj := List.mem_of_mem_filter hq2
    have hund := List.of_mem_filter hq2
    rw [if_neg (relTo_ne_dot root q hund (hgoodall q hobj))]
    by_cases hd : isDirFs fs q = true <;> simp [hd]
  · intro p0 c0 hmem hund0
    have hlook0 : lookupFile fs.files p0 = some c0 :=
      lookupFile_of_mem_nodup fs.files p0 c0 hkeysnodup hmem
    have hp0key : p0 ∈ fs.files.map (fun e => e.1) := List.mem_map.mpr ⟨(p0, c0), hmem, rfl⟩
    rw [hzip, countP_filterMap, List.Perm.countP_eq _ (sortPaths_perm _),
      List.countP_filter, hobjsplit, List.countP_append]
    apply nat_sum_eq_one
    · rw [List.countP_eq_zero]
      intro d hd hP
      by_cases hu : strictUnder root d = true
      · rw [if_neg (relTo_ne_dot root d hu (hgoodall d (hmemobj_dir d hd))),
          if_pos (hisdir_dir d hd)] at hP
        simp at hP
      · simp [hu] at hP
    · rw [List.countP_map]
      refine Eq.trans (countP_congr_eq _ (fun e => decide (e.1 = p0)) fs.files ?_) ?_
      · intro e he
        simp only [Function.comp_apply]
        obtain ⟨q, cq⟩ := e
        have hq1 : ((q, cq) : Str × List Nat).1 = q := rfl
        rw [hq1]
        have hqkey : q ∈ fs.files.map (fun e => e.1) := List.mem_map.mpr ⟨(q, cq), he, rfl⟩
        by_cases hu : strictUnder root q = true
        · rw [if_neg (relTo_ne_dot root q hu (hgoodall q (hmemobj_file q hqkey))),
            if_neg (by simp [hisdir_file q hqkey]),
            lookupFile_of_mem_nodup fs.files q cq hkeysnodup he]
          by_cases heq : q = p0
          · subst heq
            have hcc : cq = c0 := by
              have h5 := lookupFile_of_mem_nodup fs.files q cq hkeysnodup he
              rw [hlook0] at h5
              exact (Option.some.injEq _ _ ▸ h5).symm
            subst hcc
            simp [hu]
          · have hrne : relTo root q ≠ relTo root p0 := by
              intro hr
              exact heq (relTo_inj root q p0 hu hund0 hr)
            simp [ZipEntry.mk.injEq, hrne, heq]
        · have hqne : q ≠ p0 := by
            intro heq
            rw [heq] at hu
            exact hu hund0
          simp [hu, hqne]
      · have hone := countP_eq_one_of_nodup (fs.files.map (fun e => e.1)) p0 hkeysnodup hp0key
        rw [List.countP_map] at hone
        exact hone
  · intro d0 hd0 hund0
    rw [hzip, countP_filterMap, List.Perm.countP_eq _ (sortPaths_perm _),
      List.countP_filter, hobjsplit, List.countP_append]
    rw [show ∀ (x y : Nat), x + y = y + x from fun x y => Nat.add_comm x y]
    apply nat_sum_eq_one
    · rw [List.countP_eq_zero]
      intro q hq hP
      by_cases hu : strictUnder root q = true
      · rw [if_neg (relTo_ne_dot root q hu (hgoodall q (hmemobj_file q hq))),
          if_neg (by simp [hisdir_file q hq])] at hP
        simp at hP
      · simp [hu] at hP
    · refine Eq.trans (countP_congr_eq _ (fun d => decide (d = d0)) fs.dirs ?_) ?_
      · intro d hd
        by_cases hu : strictUnder root d = true
        · rw [if_neg (relTo_ne_dot root d hu (hgoodall d (hmemobj_dir d hd))),
            if_pos (hisdir_dir d hd)]
          by_cases heq : d = d0
          · subst heq
            simp [hu]
          · have hrne : relTo root d ++ ['/'] ≠ relTo root d0 ++ ['/'] := by
              intro hr
              exact heq (relTo_inj root d d0 hu hund0 (append_singleton_inj _ _ '/' hr))
            simp [ZipEntry.mk.injEq, hrne, heq]
        · have hdne : d ≠ d0 := by
            intro heq
            rw [heq] at hu
            exact hu hund0
          simp [hu, hdne]
      · exact countP_eq_one_of_nodup fs.dirs d0 hndparts.1 hd0
  · intro en hen
    rw [hzip] at hen
    rcases List.mem_filterMap.mp hen with ⟨q, hq, hfq⟩
    have hq2 := (sortPaths_perm _).mem_iff.mp hq
    have hobj := List.mem_of_mem_filter hq2
    have hund := List.of_mem_filter hq2
    have hnedot := relTo_ne_dot root q hund (hgoodall q hobj)
    have hsegs := relTo_segs_good root q hund (hgoodall q hobj)
    rw [if_neg hnedot] at hfq
    by_cases hd : isDirFs fs q = true
    · rw [if_pos hd] at hfq
      simp only [Option.some.injEq] at hfq
      subst hfq
      refine ⟨append_slash_ne_dot _, ?_⟩
      show relTo root q ++ ['/'] ≠ strOf "./"
      intro h
      have h2 : relTo root q ++ ['/'] = strOf "." ++ ['/'] := by
        rw [h]
        rfl
      exact hnedot (append_singleton_inj _ _ '/' h2)
    · rw [if_neg hd] at hfq
      simp only [Option.some.injEq] at hfq
      subst hfq
      constructor
      · exact hnedot
      · show relTo root q ≠ strOf "./"
        intro h
        rw [h] at hsegs
        exact absurd hsegs (by decide)

theorem c9_witness :
    fsWfB fsW (strOf "uploads/u") = true
    ∧ (strOf "uploads/u/a.txt", [104, 105]) ∈ fsW.files
    ∧ strictUnder (strOf "uploads/u") (strOf "uploads/u/a.txt") = true
    ∧ (zipEntries fsW (strOf "uploads/u")).countP
        (fun en => decide (en
          = ⟨relTo (strOf "uploads/u") (strOf "uploads/u/a.txt"), some [104, 105]⟩)) = 1
    ∧ strOf "uploads/u/sub" ∈ fsW.dirs
    ∧ strictUnder (strOf "uploads/u") (strOf "uploads/u/sub") = true
    ∧ (zipEntries fsW (strOf "uploads/u")).countP
        (fun en => decide (en
          = ⟨relTo (strOf "uploads/u") (strOf "uploads/u/sub") ++ ['/'], none⟩)) = 1 := by
  refine ⟨by decide, by decide, by decide, ?_, by decide, by decide, ?_⟩
  · exact (c9_zip_archive fsW (strOf "uploads/u") (by decide)).2.1
      (strOf "uploads/u/a.txt") [104, 105] (by decide) (by decide)
  · exact (c9_zip_archive fsW (strOf "uploads/u") (by decide)).2.2.1
      (strOf "uploads/u/sub") (by decide) (by decide)
